import Mathlib

set_option autoImplicit false

/-
  Verification of the dynamic protobuf JSON codec (package `dynamic`,
  file stub.go, second document: JSON marshalling and unmarshalling for
  dynamic messages).

  The decoder in the source is a streaming, lookahead-one token reader
  (`jsReader`) built on Go's `encoding/json` decoder with `UseNumber()`.
  We embed the code at the token level: Go's `json.Decoder.Token()`
  stream is modelled as a `List JsToken`, and each Go function on the
  reader becomes a function from a token list to a result together with
  the remaining token list.  Go's `json.Number` is a string, and is
  modelled as a `String`.

  Functions of the source that loop on the token stream (the object and
  array loops, and the structural `skip` family) are given an explicit
  fuel parameter for termination; fuel is a model artifact, never part of
  the source semantics: running out of fuel gives the distinguished
  `JsError.outOfFuel`, and the top-level entry points supply fuel larger
  than the input length, which every theorem below instantiates.
-/

namespace ProtoJson

/-- The declared protobuf field types, mirroring the
`descriptor.FieldDescriptorProto_TYPE_*` constants the source switches on. -/
inductive FieldType : Type where
  | tInt32 | tInt64 | tUint32 | tUint64
  | tSint32 | tSint64 | tFixed32 | tFixed64
  | tSfixed32 | tSfixed64
  | tFloat | tDouble | tBool | tString | tBytes
  | tEnum | tMessage | tGroup
  deriving DecidableEq, Repr

/-- An enum value descriptor: `desc.EnumValueDescriptor` (name and int32 number). -/
structure EnumValueDesc : Type where
  name : String
  number : Int
  deriving DecidableEq, Repr

/-- An enum type descriptor: `desc.EnumDescriptor` with its fully qualified
name and its value descriptors. -/
structure EnumDesc : Type where
  fqn : String
  values : List EnumValueDesc
  deriving DecidableEq, Repr

mutual
/-- A field descriptor, the slice of `desc.FieldDescriptor` the JSON decoder
consumes: number, name, declared type, `IsRepeated`, `IsMap`, required
cardinality (used only by the spec-modelled `Validate`), and the nested
message / enum type descriptors for message, group, map and enum fields. -/
inductive FieldDesc : Type where
  | mk (number : Nat) (name : String) (typ : FieldType)
       (repeated : Bool) (isMapF : Bool) (required : Bool)
       (messageType : Option MessageDesc) (enumType : Option EnumDesc)
/-- A message descriptor: fully qualified name and ordered field descriptors. -/
inductive MessageDesc : Type where
  | mk (fqn : String) (fields : List FieldDesc)
end

def FieldDesc.number : FieldDesc → Nat
  | .mk n _ _ _ _ _ _ _ => n

def FieldDesc.name : FieldDesc → String
  | .mk _ s _ _ _ _ _ _ => s

def FieldDesc.typ : FieldDesc → FieldType
  | .mk _ _ t _ _ _ _ _ => t

/-- The source's `fd.IsRepeated()`. -/
def FieldDesc.repeated : FieldDesc → Bool
  | .mk _ _ _ r _ _ _ _ => r

/-- The source's `fd.IsMap()`. -/
def FieldDesc.isMapF : FieldDesc → Bool
  | .mk _ _ _ _ m _ _ _ => m

def FieldDesc.required : FieldDesc → Bool
  | .mk _ _ _ _ _ r _ _ => r

/-- The source's `fd.GetMessageType()`; `none` models a nil descriptor. -/
def FieldDesc.messageType : FieldDesc → Option MessageDesc
  | .mk _ _ _ _ _ _ mt _ => mt

/-- The source's `fd.GetEnumType()`; `none` models a nil descriptor. -/
def FieldDesc.enumType : FieldDesc → Option EnumDesc
  | .mk _ _ _ _ _ _ _ et => et

def MessageDesc.fqn : MessageDesc → String
  | .mk s _ => s

def MessageDesc.fields : MessageDesc → List FieldDesc
  | .mk _ fs => fs

/-- Descriptor lookup `findFieldByName` (external collaborator of the core,
spec section 6): first field descriptor with the given name. -/
def findFieldByName (d : MessageDesc) (s : String) : Option FieldDesc :=
  d.fields.find? (fun fd => fd.name = s)

/-- Descriptor lookup `findFieldByNumber` (external collaborator of the core,
spec section 6): first field descriptor with the given number. -/
def findFieldByNumber (d : MessageDesc) (n : Nat) : Option FieldDesc :=
  d.fields.find? (fun fd => fd.number = n)

/-- Modelled from the spec: the descriptor symbol table lookup
`fd.GetFile().FindSymbol("<enum_type_fqn>.<name>")` used by enum decoding
(the `desc` package is not part of the sources under verification).  Per the
spec, resolution of the fully qualified name inside the enum type amounts to
looking the bare name up among the enum type's values. -/
def findEnumValueByName (ed : EnumDesc) (s : String) : Option EnumValueDesc :=
  ed.values.find? (fun v => v.name = s)

mutual
/-- A runtime field value as stored by the dynamic message (Go `interface` of
the canonical storage types, spec section 3; an enum value is stored as its
32-bit signed number, exactly as the Go code stores an `int32`).  IEEE-754 parsing and
formatting are outside the embedding: float and double values carry the
decimal literal they were parsed from; no claim below depends on float
semantics. -/
inductive FieldValue : Type where
  | vint32 (i : Int)
  | vint64 (i : Int)
  | vuint32 (n : Nat)
  | vuint64 (n : Nat)
  | vbool (b : Bool)
  | vstr (s : String)
  | vbytes (bs : List Nat)
  | vfloat (s : String)
  | vdouble (s : String)
  | vmsg (m : DynMessage)
  | vlist (vs : List FieldValue)
  | vmap (entries : List (Option FieldValue × Option FieldValue))
/-- The dynamic message: its descriptor and the mapping from field number to
stored value (`m.values`), modelled as an association list.  The extension
registry reference and the unknown-field buffer are not modelled: no claim
below exercises extensions or the binary path. -/
inductive DynMessage : Type where
  | mk (desc : MessageDesc) (values : List (Nat × FieldValue))
end

def DynMessage.desc : DynMessage → MessageDesc
  | .mk d _ => d

def DynMessage.values : DynMessage → List (Nat × FieldValue)
  | .mk _ v => v

/-- The source's `NewMessageWithExtensionRegistry`: a fresh message bound to a
descriptor, with no fields set (the registry itself is not modelled). -/
def freshMessage (d : MessageDesc) : DynMessage := .mk d []

/-- Association-list lookup by field number (reading Go's `m.values` map). -/
def lookupNum (l : List (Nat × FieldValue)) (n : Nat) : Option FieldValue :=
  match l.find? (fun p => p.1 = n) with
  | some p => some p.2
  | none => none

/-- Association-list overwrite by field number (writing Go's `m.values` map). -/
def storeNum (l : List (Nat × FieldValue)) (n : Nat) (v : FieldValue) :
    List (Nat × FieldValue) :=
  match l with
  | [] => [(n, v)]
  | (k, w) :: tl => if k = n then (n, v) :: tl else (k, w) :: storeNum tl n v

/-- Association-list removal by field number (Go's `delete(m.values, n)`):
after deletion no entry with the key remains. -/
def removeNum (l : List (Nat × FieldValue)) (n : Nat) :
    List (Nat × FieldValue) :=
  l.filter (fun p => !(p.1 = n))

/-- Modelled from the spec: `m.internalSetField(fd, v)` of the dynamic message
store (not among the sources) stores the already-parsed value under the
field's number, overwriting any previous value.  Oneof-group eviction is
omitted: no claim below involves oneof groups. -/
def internalSetField (m : DynMessage) (fd : FieldDesc) (v : FieldValue) :
    DynMessage :=
  .mk m.desc (storeNum m.values fd.number v)

/-- The `delete(m.values, fd.GetNumber())` branch of `unmarshalJson`. -/
def deleteField (m : DynMessage) (n : Nat) : DynMessage :=
  .mk m.desc (removeNum m.values n)

/-- Modelled from the spec: `m.Reset()` (not among the sources) clears every
stored field value. -/
def resetMessage (m : DynMessage) : DynMessage := .mk m.desc []

mutual
/-- Modelled from the spec: the recursive part of `m.Validate()` — every
stored nested message must itself validate. -/
def validateVal : FieldValue → Bool
  | .vmsg m => validateMsg m
  | .vlist vs => validateList vs
  | .vmap es => validateEntries es
  | _ => true
def validateList : List FieldValue → Bool
  | [] => true
  | v :: r => validateVal v && validateList r
def validateEntries : List (Option FieldValue × Option FieldValue) → Bool
  | [] => true
  | (_, some v) :: r => validateVal v && validateEntries r
  | (_, none) :: r => validateEntries r
/-- Modelled from the spec: `m.Validate()` (not among the sources) checks that
every required-cardinality field is present, recursively into nested
messages. -/
def validateMsg : DynMessage → Bool
  | .mk d vals =>
    (d.fields.all (fun fd => !fd.required || (lookupNum vals fd.number).isSome))
      && validateVals vals
def validateVals : List (Nat × FieldValue) → Bool
  | [] => true
  | (_, v) :: r => validateVal v && validateVals r
end

/-- Structural equality of scalar stored values, modelling Go's `interface`
equality as used for the keys of `map[interface]interface`.  Map keys are
scalar by descriptor invariant; composite values (pointers to messages,
slices, maps) are never equal as Go interface keys, so every composite case
is `false`. -/
def feq : FieldValue → FieldValue → Bool
  | .vint32 a, .vint32 b => a = b
  | .vint64 a, .vint64 b => a = b
  | .vuint32 a, .vuint32 b => a = b
  | .vuint64 a, .vuint64 b => a = b
  | .vbool a, .vbool b => a = b
  | .vstr a, .vstr b => a = b
  | .vbytes a, .vbytes b => a = b
  | .vfloat a, .vfloat b => a = b
  | .vdouble a, .vdouble b => a = b
  | _, _ => false

/-- Equality of optional stored values (Go interface values that may be nil). -/
def feqOpt : Option FieldValue → Option FieldValue → Bool
  | none, none => true
  | some a, some b => feq a b
  | _, _ => false

/-- Go map assignment `mp[k] = v` on the association-list model: overwrite the
entry with the same key in place, or append a new entry. -/
def mapInsert (l : List (Option FieldValue × Option FieldValue))
    (k v : Option FieldValue) : List (Option FieldValue × Option FieldValue) :=
  match l with
  | [] => [(k, v)]
  | (k0, v0) :: tl =>
    if feqOpt k0 k then (k, v) :: tl else (k0, v0) :: mapInsert tl k v

/-- Go map read `mp[k]` on the association-list model. -/
def mapLookup (l : List (Option FieldValue × Option FieldValue))
    (k : Option FieldValue) : Option (Option FieldValue) :=
  match l.find? (fun p => feqOpt p.1 k) with
  | some p => some p.2
  | none => none

/-- A token of Go's `encoding/json` decoder configured with `UseNumber()`:
structural delimiters, `nil` (JSON null), `bool`, `json.Number` (carrying the
literal text) and `string`.  Since `UseNumber` is set, a number token is
always a `json.Number`, never a `float64`. -/
inductive JsToken : Type where
  | beginObj
  | endObj
  | beginArr
  | endArr
  | null
  | tbool (b : Bool)
  | num (s : String)
  | str (s : String)
  deriving DecidableEq, Repr

/-- The errors the decoding path can surface.  `eof` is `io.EOF` from the
underlying decoder; `badInput` is the `jsReader.expect` failure message
("Bad input. Expecting ...") carrying the expectation and the offending
token; `numericOverflow` is the package's `NumericOverflowError` sentinel;
`intParse` and `intRange` are the syntax and range errors of
`strconv.ParseInt` / `strconv.ParseUint` (also reached through
`json.Number.Int64`); `floatParse` likewise for `Float64`;
`trailingData` is the "Superfluous data found after JSON object" error of
`UnmarshalMergeJSON`, carrying the unconsumed remainder; `unknownFieldType`
is the default branch of `unmarshalJsFieldElement` ("Unknown field type");
`badDescriptor` models a nil-descriptor dereference (unreachable for
well-formed descriptors); `typeMismatch` models the `m.(*Message)` type
assertion on map entries; `unknownField` is the `TryGetFieldByNumber` error
for a number the descriptor does not know; `missingRequiredField` is the
failure of the spec-modelled `Validate`; `outOfFuel` is the model artifact
for exhausted fuel; `unresolvedEnumValue` is the error the spec's taxonomy
calls `UnresolvedEnumValue` — it is declared here so claims about it can be
stated, and it is produced by no function of the embedded code. -/
inductive JsError : Type where
  | eof
  | badInput (expected : String) (got : JsToken)
  | numericOverflow
  | intParse (s : String)
  | intRange (s : String)
  | floatParse (s : String)
  | trailingData (rest : List JsToken)
  | unknownFieldType (t : FieldType)
  | badDescriptor
  | typeMismatch
  | unknownField (n : Nat)
  | missingRequiredField
  | outOfFuel
  | unresolvedEnumValue
  deriving DecidableEq, Repr

/-- Decimal digit string to value; `none` if empty or a non-digit occurs
(the core of `strconv`'s base-10 integer parsing). -/
def digitsToNat : List Char → Option Nat
  | [] => none
  | cs => cs.foldl
      (fun acc c => match acc with
        | none => none
        | some n => if c.isDigit then some (n * 10 + (c.toNat - 48)) else none)
      (some 0)

/-- Go's `strconv.ParseInt(s, 10, 64)`, which is also `json.Number.Int64`:
an optional sign followed by decimal digits; a malformed string gives the
syntax error, a value outside the signed 64-bit range gives the range
error. -/
def parseInt64 (s : String) : Except JsError Int :=
  let cs := s.toList
  let (neg, body) :=
    match cs with
    | '-' :: tl => (true, tl)
    | '+' :: tl => (false, tl)
    | _ => (false, cs)
  match digitsToNat body with
  | none => .error (.intParse s)
  | some mag =>
    let v : Int := if neg then -(mag : Int) else (mag : Int)
    if v < -(2 ^ 63) || v > 2 ^ 63 - 1 then .error (.intRange s)
    else .ok v

/-- Go's `strconv.ParseUint(s, 10, 64)`: decimal digits with no sign prefix;
values above the unsigned 64-bit range give the range error. -/
def parseUint64 (s : String) : Except JsError Nat :=
  match digitsToNat s.toList with
  | none => .error (.intParse s)
  | some mag =>
    if mag > 2 ^ 64 - 1 then .error (.intRange s)
    else .ok mag

/-- Syntactic check standing in for `json.Number.Float64`: an optional sign,
digits, an optional fraction and an optional exponent.  IEEE-754 value
semantics are outside the embedding (the parsed value is carried as its
literal text); no claim below depends on float fields. -/
def floatSyntaxOk (s : String) : Bool :=
  let cs := s.toList
  let cs := match cs with
    | '-' :: tl => tl
    | '+' :: tl => tl
    | _ => cs
  let (intPart, cs) := (cs.takeWhile Char.isDigit, cs.dropWhile Char.isDigit)
  if intPart.isEmpty then false
  else
    let (cs, fracOk) := match cs with
      | '.' :: tl =>
        (tl.dropWhile Char.isDigit, !(tl.takeWhile Char.isDigit).isEmpty)
      | _ => (cs, true)
    if !fracOk then false
    else
      match cs with
      | [] => true
      | e :: tl =>
        if e = 'e' || e = 'E' then
          let tl := match tl with
            | '-' :: tl2 => tl2
            | '+' :: tl2 => tl2
            | _ => tl
          !tl.isEmpty && tl.all Char.isDigit
        else false

/-- The `Float64` call on a `json.Number`: on syntactically numeric text the
literal itself is the carried value, otherwise the parse error. -/
def parseFloat (s : String) : Except JsError String :=
  if floatSyntaxOk s then .ok s else .error (.floatParse s)

/-- The reader's `hasNext`, i.e. `json.Decoder.More()`: there is a further
element in the current object or array — the next token exists and is not a
closing delimiter. -/
def hasNext : List JsToken → Bool
  | [] => false
  | t :: _ => !(t = .endObj || t = .endArr)

/-- The reader's `poll`: consume and return the next token; `io.EOF` when the
input is exhausted. -/
def poll : List JsToken → Except JsError (JsToken × List JsToken)
  | [] => .error .eof
  | t :: tl => .ok (t, tl)

/-- The reader's `expect`: poll one token; a null token is replaced by the
`ifNil` default when one is given; otherwise the token must satisfy the
predicate or the "Bad input" error is returned. -/
def expect (pred : JsToken → Bool) (ifNil : Option JsToken)
    (expected : String) (ts : List JsToken) :
    Except JsError (JsToken × List JsToken) :=
  match poll ts with
  | .error e => .error e
  | .ok (t, tl) =>
    if t = .null then
      match ifNil with
      | some d => .ok (d, tl)
      | none =>
        if pred t then .ok (t, tl) else .error (.badInput expected t)
    else
      if pred t then .ok (t, tl) else .error (.badInput expected t)

/-- The reader's `beginObject`. -/
def beginObject (ts : List JsToken) :
    Except JsError (JsToken × List JsToken) :=
  expect (fun t => t = .beginObj) none "start of JSON object" ts

/-- The reader's `endObject`. -/
def endObject (ts : List JsToken) :
    Except JsError (JsToken × List JsToken) :=
  expect (fun t => t = .endObj) none "end of JSON object" ts

/-- The reader's `beginArray`. -/
def beginArray (ts : List JsToken) :
    Except JsError (JsToken × List JsToken) :=
  expect (fun t => t = .beginArr) none "start of array" ts

/-- The reader's `endArray`. -/
def endArray (ts : List JsToken) :
    Except JsError (JsToken × List JsToken) :=
  expect (fun t => t = .endArr) none "end of array" ts

/-- The reader's `nextString`: a string token (a null token yields the empty
string through `expect`'s `ifNil` default). -/
def nextString (ts : List JsToken) : Except JsError (String × List JsToken) :=
  match expect (fun t => match t with | .str _ => true | _ => false)
      (some (.str "")) "string" ts with
  | .error e => .error e
  | .ok (.str s, tl) => .ok (s, tl)
  | .ok (t, _) => .error (.badInput "string" t)

/-- The reader's `nextObjectKey`. -/
def nextObjectKey (ts : List JsToken) :
    Except JsError (String × List JsToken) :=
  nextString ts

/-- The reader's `nextBool`: a bool token (null yields `false` via `ifNil`). -/
def nextBool (ts : List JsToken) : Except JsError (Bool × List JsToken) :=
  match expect (fun t => match t with | .tbool _ => true | _ => false)
      (some (.tbool false)) "boolean" ts with
  | .error e => .error e
  | .ok (.tbool b, tl) => .ok (b, tl)
  | .ok (t, _) => .error (.badInput "boolean" t)

/-- The reader's `nextNumber`: the `expect` predicate is
`reflect.TypeOf(t).Kind() == reflect.String`, which holds exactly for
`json.Number` and `string` tokens; both carry their text (null yields the
number "0" via `ifNil`).  The final catch-all mirrors the source's
unreachable "Expecting a number but got" return. -/
def nextNumber (ts : List JsToken) : Except JsError (String × List JsToken) :=
  match expect
      (fun t => match t with | .num _ => true | .str _ => true | _ => false)
      (some (.num "0")) "number" ts with
  | .error e => .error e
  | .ok (.num s, tl) => .ok (s, tl)
  | .ok (.str s, tl) => .ok (s, tl)
  | .ok (t, _) => .error (.badInput "number" t)

/-- The reader's `nextInt`: `nextNumber` then `json.Number.Int64`. -/
def nextInt (ts : List JsToken) : Except JsError (Int × List JsToken) :=
  match nextNumber ts with
  | .error e => .error e
  | .ok (s, tl) =>
    match parseInt64 s with
    | .error e => .error e
    | .ok i => .ok (i, tl)

/-- The reader's `nextUint`: `nextNumber` then `strconv.ParseUint(_, 10, 64)`. -/
def nextUint (ts : List JsToken) : Except JsError (Nat × List JsToken) :=
  match nextNumber ts with
  | .error e => .error e
  | .ok (s, tl) =>
    match parseUint64 s with
    | .error e => .error e
    | .ok n => .ok (n, tl)

/-- The reader's `nextFloat`: `nextNumber` then `json.Number.Float64`. -/
def nextFloat (ts : List JsToken) : Except JsError (String × List JsToken) :=
  match nextNumber ts with
  | .error e => .error e
  | .ok (s, tl) =>
    match parseFloat s with
    | .error e => .error e
    | .ok v => .ok (v, tl)

/-- Modelled from the spec: the per-type default used by
`TryGetFieldByNumber` when a field is absent — empty sequence or mapping for
repeated and map fields, the type's zero value for singular scalars, and
absence (`none`) for a singular message field. -/
def defaultOf (fd : FieldDesc) : Option FieldValue :=
  if fd.isMapF then some (.vmap [])
  else if fd.repeated then some (.vlist [])
  else
    match fd.typ with
    | .tInt32 | .tSint32 | .tSfixed32 => some (.vint32 0)
    | .tInt64 | .tSint64 | .tSfixed64 => some (.vint64 0)
    | .tUint32 | .tFixed32 => some (.vuint32 0)
    | .tUint64 | .tFixed64 => some (.vuint64 0)
    | .tBool => some (.vbool false)
    | .tString => some (.vstr "")
    | .tBytes => some (.vbytes [])
    | .tEnum => some (.vint32 0)
    | .tFloat => some (.vfloat "0")
    | .tDouble => some (.vdouble "0")
    | .tMessage | .tGroup => none

/-- Modelled from the spec: `m.TryGetFieldByNumber(n)` of the dynamic message
store (not among the sources) — the stored value if present, the type
default if the descriptor knows the number, and an error otherwise. -/
def tryGetFieldByNumber (m : DynMessage) (n : Nat) :
    Except JsError (Option FieldValue) :=
  match lookupNum m.values n with
  | some v => .ok (some v)
  | none =>
    match findFieldByNumber m.desc n with
    | none => .error (.unknownField n)
    | some fd => .ok (defaultOf fd)

/-- The map-building loop of `unmarshalJsField`'s array branch: each element
of the parsed slice is asserted to be a message, its fields 1 and 2 are read
with `TryGetFieldByNumber`, and `mp[kk] = vv` is performed in order. -/
def entriesFromMessages
    (acc : List (Option FieldValue × Option FieldValue)) :
    List FieldValue →
    Except JsError (List (Option FieldValue × Option FieldValue))
  | [] => .ok acc
  | .vmsg mm :: tl =>
    match tryGetFieldByNumber mm 1 with
    | .error e => .error e
    | .ok kk =>
      match tryGetFieldByNumber mm 2 with
      | .error e => .error e
      | .ok vv => entriesFromMessages (mapInsert acc kk vv) tl
  | _ :: _ => .error .typeMismatch

mutual
/-- The reader's `skip`: consume one complete JSON value of any shape.  The
pair result carries the error (if any) together with the reader position,
because `unmarshalJson` discards `skip`'s error and keeps reading from
wherever `skip` stopped. -/
def skip : Nat → List JsToken → Option JsError × List JsToken
  | 0, ts => (some .outOfFuel, ts)
  | fuel+1, ts =>
    match ts with
    | [] => (some .eof, [])
    | .beginArr :: tl => skipArray fuel tl
    | .beginObj :: tl => skipObject fuel tl
    | _ :: tl => (none, tl)

/-- The reader's `skipArray` (the opening delimiter has been consumed). -/
def skipArray : Nat → List JsToken → Option JsError × List JsToken
  | 0, ts => (some .outOfFuel, ts)
  | fuel+1, ts =>
    if hasNext ts then
      match skip fuel ts with
      | (some e, ts1) => (some e, ts1)
      | (none, ts1) => skipArray fuel ts1
    else
      match ts with
      | [] => (some .eof, [])
      | t :: tl =>
        if t = .endArr then (none, tl)
        else (some (.badInput "end of array" t), tl)

/-- The reader's `skipObject`: each iteration skips an object key and then
its value (the opening delimiter has been consumed). -/
def skipObject : Nat → List JsToken → Option JsError × List JsToken
  | 0, ts => (some .outOfFuel, ts)
  | fuel+1, ts =>
    if hasNext ts then
      match skip fuel ts with
      | (some e, ts1) => (some e, ts1)
      | (none, ts1) =>
        match skip fuel ts1 with
        | (some e, ts2) => (some e, ts2)
        | (none, ts2) => skipObject fuel ts2
    else
      match ts with
      | [] => (some .eof, [])
      | t :: tl =>
        if t = .endObj then (none, tl)
        else (some (.badInput "end of JSON object" t), tl)
end

mutual
/-- The source's `Message.unmarshalJson`: a top-level null token is consumed
and the message is left untouched; otherwise an object is read and each key
is resolved against the descriptor (the loop body lives in
`unmarshalJsonLoop`). -/
def unmarshalJson (fuel : Nat) (m : DynMessage) (ts : List JsToken) :
    Except JsError (DynMessage × List JsToken) :=
  match fuel with
  | 0 => .error .outOfFuel
  | fuel+1 =>
    match ts with
    | [] => .error .eof
    | t :: tl =>
      if t = .null then .ok (m, tl)
      else
        match beginObject ts with
        | .error e => .error e
        | .ok (_, ts1) => unmarshalJsonLoop fuel m ts1

/-- The `for r.hasNext()` loop of `Message.unmarshalJson`, followed by
`endObject`: keys with no field descriptor are structurally skipped with the
skip error discarded, exactly as in the source (`r.skip(); continue`); a
parsed nil value deletes the field, a non-nil value is stored. -/
def unmarshalJsonLoop (fuel : Nat) (m : DynMessage) (ts : List JsToken) :
    Except JsError (DynMessage × List JsToken) :=
  match fuel with
  | 0 => .error .outOfFuel
  | fuel+1 =>
    if hasNext ts then
      match nextObjectKey ts with
      | .error e => .error e
      | .ok (f, ts1) =>
        match findFieldByName m.desc f with
        | none =>
          let sk := skip fuel ts1
          if sk.1 = some .outOfFuel then .error .outOfFuel
          else unmarshalJsonLoop fuel m sk.2
        | some fd =>
          match unmarshalJsField fuel fd ts1 with
          | .error e => .error e
          | .ok (some v, ts2) =>
            unmarshalJsonLoop fuel (internalSetField m fd v) ts2
          | .ok (none, ts2) =>
            unmarshalJsonLoop fuel (deleteField m fd.number) ts2
    else
      match endObject ts with
      | .error e => .error e
      | .ok (_, ts1) => .ok (m, ts1)

/-- The source's `unmarshalJsField`: null clears; a JSON object for a map
field is read entry-wise; a JSON array is read element-wise even for
non-repeated fields (only the last value is kept); a bare value for a
repeated field becomes a singleton slice. -/
def unmarshalJsField (fuel : Nat) (fd : FieldDesc) (ts : List JsToken) :
    Except JsError (Option FieldValue × List JsToken) :=
  match fuel with
  | 0 => .error .outOfFuel
  | fuel+1 =>
    match ts with
    | [] => .error .eof
    | t :: tl =>
      if t = .null then .ok (none, tl)
      else if t = .beginObj && fd.isMapF then
        match fd.messageType with
        | none => .error .badDescriptor
        | some entryType =>
          match findFieldByNumber entryType 1,
                findFieldByNumber entryType 2 with
          | some keyType, some valueType =>
            match beginObject ts with
            | .error e => .error e
            | .ok (_, ts1) =>
              match unmarshalJsMapLoop fuel keyType valueType [] ts1 with
              | .error e => .error e
              | .ok (mp, ts2) => .ok (some (.vmap mp), ts2)
          | _, _ => .error .badDescriptor
      else if t = .beginArr then
        match beginArray ts with
        | .error e => .error e
        | .ok (_, ts1) =>
          match unmarshalJsArrayLoop fuel fd [] none ts1 with
          | .error e => .error e
          | .ok ((sl, v), ts2) =>
            if fd.isMapF then
              match entriesFromMessages [] sl with
              | .error e => .error e
              | .ok mp => .ok (some (.vmap mp), ts2)
            else if fd.repeated then .ok (some (.vlist sl), ts2)
            else .ok (v, ts2)
      else
        match unmarshalJsFieldElement fuel fd ts with
        | .error e => .error e
        | .ok (none, ts1) => .ok (none, ts1)
        | .ok (some v, ts1) =>
          if fd.repeated then .ok (some (.vlist [v]), ts1)
          else .ok (some v, ts1)

/-- The `for r.hasNext()` loop of `unmarshalJsField`'s map-object branch,
followed by `endObject`: keys and values are parsed with the entry field
descriptors and inserted in order. -/
def unmarshalJsMapLoop (fuel : Nat) (keyType valueType : FieldDesc)
    (mp : List (Option FieldValue × Option FieldValue)) (ts : List JsToken) :
    Except JsError
      (List (Option FieldValue × Option FieldValue) × List JsToken) :=
  match fuel with
  | 0 => .error .outOfFuel
  | fuel+1 =>
    if hasNext ts then
      match unmarshalJsFieldElement fuel keyType ts with
      | .error e => .error e
      | .ok (kk, ts1) =>
        match unmarshalJsFieldElement fuel valueType ts1 with
        | .error e => .error e
        | .ok (vv, ts2) =>
          unmarshalJsMapLoop fuel keyType valueType (mapInsert mp kk vv) ts2
    else
      match endObject ts with
      | .error e => .error e
      | .ok (_, ts1) => .ok (mp, ts1)

/-- The `for r.hasNext()` loop of `unmarshalJsField`'s array branch, followed
by `endArray`: `v` always holds the latest element result; an element is
appended to the slice only when the field is repeated and the element was
not null. -/
def unmarshalJsArrayLoop (fuel : Nat) (fd : FieldDesc)
    (sl : List FieldValue) (v : Option FieldValue) (ts : List JsToken) :
    Except JsError ((List FieldValue × Option FieldValue) × List JsToken) :=
  match fuel with
  | 0 => .error .outOfFuel
  | fuel+1 =>
    if hasNext ts then
      match unmarshalJsFieldElement fuel fd ts with
      | .error e => .error e
      | .ok (v2, ts1) =>
        match v2, fd.repeated with
        | some x, true => unmarshalJsArrayLoop fuel fd (sl ++ [x]) v2 ts1
        | _, _ => unmarshalJsArrayLoop fuel fd sl v2 ts1
    else
      match endArray ts with
      | .error e => .error e
      | .ok (_, ts1) => .ok ((sl, v), ts1)

/-- The source's `unmarshalJsFieldElement`: the switch on the declared field
type.  Message and group fields recurse into a fresh nested message; enum
fields read a number token or a string token, try a 64-bit integer parse
first and fall back to symbol resolution, returning the integer-parse error
when both fail; 32-bit integer fields range-check against the int32 or
uint32 bounds with `NumericOverflowError`; 64-bit fields take the full
64-bit parse; bool and float fields use their readers.  The switch of the
source has no `TYPE_STRING` and no `TYPE_BYTES` case, so those two types
fall into the default branch and fail with the "Unknown field type" error. -/
def unmarshalJsFieldElement (fuel : Nat) (fd : FieldDesc)
    (ts : List JsToken) :
    Except JsError (Option FieldValue × List JsToken) :=
  match fuel with
  | 0 => .error .outOfFuel
  | fuel+1 =>
    match ts with
    | [] => .error .eof
    | t :: tl =>
      if t = .null then .ok (none, tl)
      else
      match fd.typ with
      | .tMessage | .tGroup =>
        match fd.messageType with
        | none => .error .badDescriptor
        | some md =>
          match unmarshalJson fuel (freshMessage md) ts with
          | .error e => .error e
          | .ok (mm, ts1) => .ok (some (.vmsg mm), ts1)
      | .tEnum =>
        match fd.enumType with
        | none => .error .badDescriptor
        | some ed =>
          match nextNumber ts with
          | .error e => .error e
          | .ok (s, ts1) =>
            match parseInt64 s with
            | .error e =>
              match findEnumValueByName ed s with
              | some ev => .ok (some (.vint32 ev.number), ts1)
              | none => .error e
            | .ok i =>
              if i > 2 ^ 31 - 1 || i < -(2 ^ 31) then .error .numericOverflow
              else .ok (some (.vint32 i), ts1)
      | .tInt32 | .tSint32 | .tSfixed32 =>
        match nextInt ts with
        | .error e => .error e
        | .ok (i, ts1) =>
          if i > 2 ^ 31 - 1 || i < -(2 ^ 31) then .error .numericOverflow
          else .ok (some (.vint32 i), ts1)
      | .tInt64 | .tSint64 | .tSfixed64 =>
        match nextInt ts with
        | .error e => .error e
        | .ok (i, ts1) => .ok (some (.vint64 i), ts1)
      | .tUint32 | .tFixed32 =>
        match nextUint ts with
        | .error e => .error e
        | .ok (n, ts1) =>
          if n > 2 ^ 32 - 1 then .error .numericOverflow
          else .ok (some (.vuint32 n), ts1)
      | .tUint64 | .tFixed64 =>
        match nextUint ts with
        | .error e => .error e
        | .ok (n, ts1) => .ok (some (.vuint64 n), ts1)
      | .tBool =>
        match nextBool ts with
        | .error e => .error e
        | .ok (b, ts1) => .ok (some (.vbool b), ts1)
      | .tFloat =>
        match nextFloat ts with
        | .error e => .error e
        | .ok (s, ts1) => .ok (some (.vfloat s), ts1)
      | .tDouble =>
        match nextFloat ts with
        | .error e => .error e
        | .ok (s, ts1) => .ok (some (.vdouble s), ts1)
      | .tString | .tBytes => .error (.unknownFieldType fd.typ)
end

/-- The source's `Message.UnmarshalMergeJSON`: parse one value into the
message, then poll; anything other than `io.EOF` is the "Superfluous data
found after JSON object" failure carrying the unconsumed remainder.  The
fuel supplied is larger than the input, which suffices for every terminating
parse (each loop iteration and nested call consumes at least one token). -/
def UnmarshalMergeJSON (m : DynMessage) (ts : List JsToken) :
    Except JsError DynMessage :=
  match unmarshalJson (ts.length + 1) m ts with
  | .error e => .error e
  | .ok (m2, rest) =>
    match rest with
    | [] => .ok m2
    | _ :: _ => .error (.trailingData rest)

/-- The source's `Message.UnmarshalJSON`: `Reset`, `UnmarshalMergeJSON`, then
`Validate` (the latter two modelled from the spec where noted above). -/
def UnmarshalJSON (m : DynMessage) (ts : List JsToken) :
    Except JsError DynMessage :=
  match UnmarshalMergeJSON (resetMessage m) ts with
  | .error e => .error e
  | .ok m2 => if validateMsg m2 then .ok m2 else .error .missingRequiredField

mutual
/-- A well-formed JSON value, used to describe inputs to the decoder. -/
inductive JsonValue : Type where
  | null
  | jbool (b : Bool)
  | jnum (s : String)
  | jstr (s : String)
  | jarr (elems : JsonList)
  | jobj (fields : JsonObj)
/-- A list of JSON values (array elements). -/
inductive JsonList : Type where
  | nil
  | cons (v : JsonValue) (tl : JsonList)
/-- A list of key and value pairs (object members). -/
inductive JsonObj : Type where
  | nil
  | cons (k : String) (v : JsonValue) (tl : JsonObj)
end

mutual
/-- The token stream `encoding/json` produces for a JSON value. -/
def JsonValue.toTokens : JsonValue → List JsToken
  | .null => [.null]
  | .jbool b => [.tbool b]
  | .jnum s => [.num s]
  | .jstr s => [.str s]
  | .jarr l => .beginArr :: (l.toTokens ++ [.endArr])
  | .jobj o => .beginObj :: (o.toTokens ++ [.endObj])
/-- Tokens of consecutive array elements. -/
def JsonList.toTokens : JsonList → List JsToken
  | .nil => []
  | .cons v tl => v.toTokens ++ tl.toTokens
/-- Tokens of consecutive object members (key token, then value tokens). -/
def JsonObj.toTokens : JsonObj → List JsToken
  | .nil => []
  | .cons k v tl => .str k :: (v.toTokens ++ tl.toTokens)
end

/-- The element parser maps this token prefix to this result, for every
continuation and every fuel beyond the prefix length. -/
def ElemParses (fd : FieldDesc) (toks : List JsToken)
    (res : Option FieldValue) : Prop :=
  ∀ fuel rest, toks.length < fuel →
    unmarshalJsFieldElement fuel fd (toks ++ rest) = .ok (res, rest)

/-- The field parser maps this token prefix to this result, for every
continuation and every fuel beyond the prefix length plus one (the field
parser spends one fuel step before reaching its element parser). -/
def FieldParses (fd : FieldDesc) (toks : List JsToken)
    (res : Option FieldValue) : Prop :=
  ∀ fuel rest, toks.length + 1 < fuel →
    unmarshalJsField fuel fd (toks ++ rest) = .ok (res, rest)

/-- The message parser, started on this message, maps this token prefix to
this result, for every continuation and every fuel beyond the prefix
length. -/
def MsgParses (m : DynMessage) (toks : List JsToken)
    (res : DynMessage) : Prop :=
  ∀ fuel rest, toks.length < fuel →
    unmarshalJson fuel m (toks ++ rest) = .ok (res, rest)

/-- Concatenated tokens of a list of JSON array elements. -/
def elemsTokens : List JsonValue → List JsToken
  | [] => []
  | v :: tl => v.toTokens ++ elemsTokens tl

/-- The token stream of a JSON array with the given elements. -/
def arrTokens (es : List JsonValue) : List JsToken :=
  .beginArr :: (elemsTokens es ++ [.endArr])

/-- The token stream of a JSON object with the given members. -/
def objTokens (o : JsonObj) : List JsToken :=
  .beginObj :: (o.toTokens ++ [.endObj])

/-- Elementwise parsing of array elements to their results. -/
def ElemsParse (fd : FieldDesc) : List JsonValue → List (Option FieldValue) → Prop
  | [], [] => True
  | v :: tl, r :: rs => ElemParses fd v.toTokens r ∧ ElemsParse fd tl rs
  | [], _ :: _ => False
  | _ :: _, [] => False

/-- The last element result of the array loop (`v` after the loop), with the
initial value for an empty list. -/
def lastD : List (Option FieldValue) → Option FieldValue → Option FieldValue
  | [], d => d
  | r :: rs, _ => lastD rs r

/-- The non-null results in order (the appended slice for a repeated field). -/
def somesOf : List (Option FieldValue) → List FieldValue
  | [] => []
  | none :: rs => somesOf rs
  | some x :: rs => x :: somesOf rs

/-- The value of the last entry whose key matches, if any. -/
def lastVal (k : Option FieldValue) :
    List (Option FieldValue × Option FieldValue) → Option (Option FieldValue)
  | [] => none
  | (k0, v0) :: tl =>
    match lastVal k tl with
    | some r => some r
    | none => if feqOpt k0 k then some v0 else none

/-- Building a Go map by inserting the pairs in order. -/
def mapOfPairs (ps : List (Option FieldValue × Option FieldValue)) :
    List (Option FieldValue × Option FieldValue) :=
  ps.foldl (fun a p => mapInsert a p.1 p.2) []

/-- Entry messages paired with the key and value read back from fields 1
and 2. -/
def EntryPairs :
    List DynMessage → List (Option FieldValue × Option FieldValue) → Prop
  | [], [] => True
  | mm :: ms, (k, v) :: ps =>
    tryGetFieldByNumber mm 1 = .ok k ∧ tryGetFieldByNumber mm 2 = .ok v ∧
      EntryPairs ms ps
  | [], _ :: _ => False
  | _ :: _, [] => False

/-- Whether a JSON value is an array. -/
def isArrV : JsonValue → Bool
  | .jarr _ => true
  | _ => false

/-- The strings that can be returned as object keys from a token stream: a
string token yields its text, and a null token yields the empty string
(through `expect`'s `ifNil` default in `nextString`). -/
def tokenKeys (ts : List JsToken) : List String :=
  ts.filterMap (fun t =>
    match t with
    | .str s => some s
    | .null => some ""
    | _ => none)

/-- The standard base64 alphabet (`encoding/base64.StdEncoding`). -/
def b64Char (n : Nat) : Char :=
  "ABCDEFGHIJKLMNOPQRSTUVWXYZabcdefghijklmnopqrstuvwxyz0123456789+/".toList.getD n 'A'

/-- Standard base64 with padding, as `encoding/base64.StdEncoding` encodes. -/
def encodeB64 : List Nat → List Char
  | b1 :: b2 :: b3 :: rest =>
    b64Char (b1 / 4) :: b64Char (b1 % 4 * 16 + b2 / 16) ::
      b64Char (b2 % 16 * 4 + b3 / 64) :: b64Char (b3 % 64) :: encodeB64 rest
  | [b1, b2] =>
    [b64Char (b1 / 4), b64Char (b1 % 4 * 16 + b2 / 16), b64Char (b2 % 16 * 4), '=']
  | [b1] => [b64Char (b1 / 4), b64Char (b1 % 4 * 16), '=', '=']
  | [] => []

/-- Modelled from the spec: protobuf-JSON stringification of a map key
(numeric and bool keys are stringified; string keys are used as is). -/
def mapKeyString : Option FieldValue → String
  | some (.vstr s) => s
  | some (.vint32 i) => toString i
  | some (.vint64 i) => toString i
  | some (.vuint32 n) => toString n
  | some (.vuint64 n) => toString n
  | some (.vbool b) => if b then "true" else "false"
  | _ => ""

mutual
/-- Modelled from the spec: the JSON encoder (`Message.marshalJSON`, whose
body in the source is an unimplemented TODO stub).  Spec section 4.4: walk
the set fields in descriptor order, emit an object keyed by field name;
repeated fields emit arrays, map fields emit objects with stringified keys,
enum values emit the symbolic name, 64-bit integers emit as JSON strings,
bytes emit standard base64, nested messages recurse.  The fuel argument
exists only to satisfy the termination checker (field values are reached
through the field-number lookup, which is not a structural projection); the
wrapper below supplies more fuel than any value's depth. -/
def marshalMsgF : Nat → DynMessage → JsonValue
  | 0, _ => .null
  | fuel+1, .mk d vals => .jobj (marshalFieldsF fuel d.fields vals)
/-- The field walk of the spec-modelled encoder: fields in descriptor order,
absent fields omitted. -/
def marshalFieldsF : Nat → List FieldDesc → List (Nat × FieldValue) → JsonObj
  | 0, _, _ => .nil
  | _+1, [], _ => .nil
  | fuel+1, fd :: rest, vals =>
    match lookupNum vals fd.number with
    | none => marshalFieldsF fuel rest vals
    | some v => .cons fd.name (marshalValueF fuel fd v) (marshalFieldsF fuel rest vals)
/-- One stored value of the spec-modelled encoder. -/
def marshalValueF : Nat → FieldDesc → FieldValue → JsonValue
  | 0, _, _ => .null
  | fuel+1, fd, v =>
    match v with
    | .vint32 i =>
      match fd.typ, fd.enumType with
      | .tEnum, some ed =>
        match ed.values.find? (fun ev => ev.number = i) with
        | some ev => .jstr ev.name
        | none => .jnum (toString i)
      | _, _ => .jnum (toString i)
    | .vint64 i => .jstr (toString i)
    | .vuint32 n => .jnum (toString n)
    | .vuint64 n => .jstr (toString n)
    | .vbool b => .jbool b
    | .vstr s => .jstr s
    | .vbytes bs => .jstr (String.mk (encodeB64 bs))
    | .vfloat s => .jnum s
    | .vdouble s => .jnum s
    | .vmsg mm => marshalMsgF fuel mm
    | .vlist vs => .jarr (marshalListF fuel fd vs)
    | .vmap es => .jobj (marshalMapF fuel fd es)
/-- Elements of a repeated field for the spec-modelled encoder. -/
def marshalListF : Nat → FieldDesc → List FieldValue → JsonList
  | 0, _, _ => .nil
  | _+1, _, [] => .nil
  | fuel+1, fd, v :: rest => .cons (marshalValueF fuel fd v) (marshalListF fuel fd rest)
/-- Entries of a map field for the spec-modelled encoder: stringified keys,
values encoded with the entry value descriptor. -/
def marshalMapF : Nat → FieldDesc →
    List (Option FieldValue × Option FieldValue) → JsonObj
  | 0, _, _ => .nil
  | _+1, _, [] => .nil
  | fuel+1, fd, (k, v) :: rest =>
    let vfd := match fd.messageType with
      | some entryType => (findFieldByNumber entryType 2).getD fd
      | none => fd
    match v with
    | some vv => .cons (mapKeyString k) (marshalValueF fuel vfd vv) (marshalMapF fuel fd rest)
    | none => .cons (mapKeyString k) .null (marshalMapF fuel fd rest)
end

mutual
/-- Total size of a message (descriptor fields plus stored values), used to
bound the encoder fuel. -/
def msgSize : DynMessage → Nat
  | .mk d vals => d.fields.length + valsSize vals + 1
def valsSize : List (Nat × FieldValue) → Nat
  | [] => 0
  | (_, v) :: rest => valSize v + valsSize rest + 1
def valSize : FieldValue → Nat
  | .vmsg m => msgSize m + 1
  | .vlist vs => listSize vs + 1
  | .vmap es => entriesSize es + 1
  | _ => 1
def listSize : List FieldValue → Nat
  | [] => 0
  | v :: rest => valSize v + listSize rest + 1
def entriesSize : List (Option FieldValue × Option FieldValue) → Nat
  | [] => 0
  | (_, some v) :: rest => valSize v + entriesSize rest + 1
  | (_, none) :: rest => entriesSize rest + 1
end

/-- Modelled from the spec: `Message.MarshalJSON` (the source body is a TODO
stub that writes nothing).  Encodes the message as one JSON value; the fuel
bound `msgSize m + 1` exceeds the fuel any walk of `m` consumes. -/
def marshalJSONspec (m : DynMessage) : JsonValue :=
  marshalMsgF (msgSize m + 1) m

/-- A sample enum descriptor for concrete instances. -/
def colorEnum : EnumDesc := ⟨"test.Color", [⟨"RED", 1⟩, ⟨"GREEN", 2⟩, ⟨"BLUE", 3⟩]⟩

/-- Sample field descriptors and message descriptors for concrete instances. -/
def fdI32 : FieldDesc := .mk 1 "i" .tInt32 false false false none none

def fdI64 : FieldDesc := .mk 2 "l" .tInt64 false false false none none

def fdStr : FieldDesc := .mk 3 "s" .tString false false false none none

def fdRep : FieldDesc := .mk 4 "r" .tInt32 true false false none none

def fdEnum : FieldDesc := .mk 5 "e" .tEnum false false false none (some colorEnum)

def fdU32 : FieldDesc := .mk 6 "u" .tUint32 false false false none none

def sampleDesc : MessageDesc :=
  .mk "test.Msg" [fdI32, fdI64, fdStr, fdRep, fdEnum, fdU32]

def sampleMsg : DynMessage := freshMessage sampleDesc

/-- The synthetic two-field entry message of a map field. -/
def entryDesc : MessageDesc :=
  .mk "test.M2.MpEntry"
    [.mk 1 "key" .tInt32 false false false none none,
     .mk 2 "value" .tBool false false false none none]

def fdMp : FieldDesc := .mk 7 "mp" .tMessage true true false (some entryDesc) none

def mapDesc : MessageDesc := .mk "test.M2" [fdMp]

/-- A descriptor with one required field, for the validation contrast. -/
def reqDesc : MessageDesc :=
  .mk "test.Req" [.mk 1 "x" .tInt32 false false true none none]

/-- A message of the sample descriptor with its string field set. -/
def strMsg : DynMessage := .mk sampleDesc [(3, .vstr "x")]

/-- Key-and-value JSON pairs of a map in object form, with each side parsing
to its result through the entry field descriptors. -/
def MapEntriesParse (keyType valueType : FieldDesc) :
    List (JsonValue × JsonValue) →
    List (Option FieldValue × Option FieldValue) → Prop
  | [], [] => True
  | (kv, vv) :: tl, (k, v) :: ps =>
    ElemParses keyType kv.toTokens k ∧ ElemParses valueType vv.toTokens v ∧
      MapEntriesParse keyType valueType tl ps
  | [], _ :: _ => False
  | _ :: _, [] => False

/-- The member tokens of a JSON object whose keys and values are the given
pairs of values. -/
def objPairsTokens : List (JsonValue × JsonValue) → List JsToken
  | [] => []
  | (kv, vv) :: tl => kv.toTokens ++ (vv.toTokens ++ objPairsTokens tl)

theorem toTokens_length_pos (v : JsonValue) : 0 < v.toTokens.length := by
  cases v <;> simp [JsonValue.toTokens]

theorem hasNext_value (v : JsonValue) (rest : List JsToken) :
    hasNext (v.toTokens ++ rest) = true := by
  cases v <;> simp [JsonValue.toTokens, hasNext]

mutual
/-- Structural skipping consumes exactly the tokens of one serialized value. -/
theorem skip_value (v : JsonValue) :
    ∀ fuel rest, v.toTokens.length ≤ fuel →
      skip fuel (v.toTokens ++ rest) = (none, rest) := by
  cases v with
  | null =>
    intro fuel rest h
    match fuel, h with
    | fuel+1, _ => rfl
  | jbool b =>
    intro fuel rest h
    match fuel, h with
    | fuel+1, _ => rfl
  | jnum s =>
    intro fuel rest h
    match fuel, h with
    | fuel+1, _ => rfl
  | jstr s =>
    intro fuel rest h
    match fuel, h with
    | fuel+1, _ => rfl
  | jarr l =>
    intro fuel rest h
    simp only [JsonValue.toTokens] at h ⊢
    match fuel, h with
    | fuel+1, h =>
      have hl : l.toTokens.length + 1 ≤ fuel := by
        simp at h; omega
      simp only [skip, List.cons_append, List.append_assoc]
      exact skip_list l fuel rest hl
  | jobj o =>
    intro fuel rest h
    simp only [JsonValue.toTokens] at h ⊢
    match fuel, h with
    | fuel+1, h =>
      have ho : o.toTokens.length + 1 ≤ fuel := by
        simp at h; omega
      simp only [skip, List.cons_append, List.append_assoc]
      exact skip_obj o fuel rest ho

/-- The array loop of `skipArray` consumes the elements and the closing
delimiter. -/
theorem skip_list (l : JsonList) :
    ∀ fuel rest, l.toTokens.length + 1 ≤ fuel →
      skipArray fuel (l.toTokens ++ .endArr :: rest) = (none, rest) := by
  cases l with
  | nil =>
    intro fuel rest h
    match fuel, h with
    | fuel+1, _ => rfl
  | cons v tl =>
    intro fuel rest h
    simp only [JsonList.toTokens] at h ⊢
    match fuel, h with
    | fuel+1, h =>
      simp only [List.length_append] at h
      have hv : v.toTokens.length ≤ fuel := by omega
      have htl : tl.toTokens.length + 1 ≤ fuel := by
        have := toTokens_length_pos v; omega
      simp only [skipArray, List.append_assoc]
      rw [hasNext_value v, if_pos rfl]
      rw [skip_value v fuel _ hv]
      exact skip_list tl fuel rest htl

/-- The object loop of `skipObject` consumes keys, values and the closing
delimiter. -/
theorem skip_obj (o : JsonObj) :
    ∀ fuel rest, o.toTokens.length + 1 ≤ fuel →
      skipObject fuel (o.toTokens ++ .endObj :: rest) = (none, rest) := by
  cases o with
  | nil =>
    intro fuel rest h
    match fuel, h with
    | fuel+1, _ => rfl
  | cons k v tl =>
    intro fuel rest h
    simp only [JsonObj.toTokens] at h ⊢
    match fuel, h with
    | fuel+1, h =>
      simp only [List.length_cons, List.length_append] at h
      have hv : v.toTokens.length ≤ fuel := by omega
      have hk : (1 : Nat) ≤ fuel := by omega
      have htl : tl.toTokens.length + 1 ≤ fuel := by
        have := toTokens_length_pos v; omega
      simp only [skipObject, List.cons_append, List.append_assoc]
      have hnext : hasNext (JsToken.str k ::
          (v.toTokens ++ (tl.toTokens ++ JsToken.endObj :: rest))) = true := by
        simp [hasNext]
      rw [hnext, if_pos rfl]
      have hskipkey : skip fuel (JsToken.str k ::
          (v.toTokens ++ (tl.toTokens ++ JsToken.endObj :: rest))) =
          (none, v.toTokens ++ (tl.toTokens ++ JsToken.endObj :: rest)) := by
        match fuel, hk with
        | fuel+1, _ => rfl
      rw [hskipkey]
      dsimp only
      rw [skip_value v fuel _ hv]
      exact skip_obj tl fuel rest htl
end

theorem objTokens_eq (o : JsonObj) : (JsonValue.jobj o).toTokens = objTokens o := rfl

theorem unmarshalJson_cons_beginObj (fuel : Nat) (m : DynMessage)
    (ts : List JsToken) :
    unmarshalJson (fuel+1) m (.beginObj :: ts) = unmarshalJsonLoop fuel m ts := rfl

/-- A run of the object-member loop extracted from a `MsgParses` fact. -/
theorem jsonLoop_of_msgParses (m res : DynMessage) (o : JsonObj)
    (hp : MsgParses m (objTokens o) res) :
    ∀ fuel rest, o.toTokens.length + 1 < fuel →
      unmarshalJsonLoop fuel m (o.toTokens ++ .endObj :: rest) =
        .ok (res, rest) := by
  intro fuel rest h
  have h2 := hp (fuel+1) rest (by simp [objTokens]; omega)
  rw [objTokens] at h2
  simp only [List.cons_append, List.append_assoc, List.singleton_append] at h2
  rw [unmarshalJson_cons_beginObj] at h2
  exact h2

/-- A run of the array-element loop: `v` tracks the latest element result and
the slice collects the non-null results when the field is repeated. -/
theorem arrayLoop_run (fd : FieldDesc) :
    ∀ (es : List JsonValue) (rs : List (Option FieldValue)),
      ElemsParse fd es rs →
      ∀ fuel (sl : List FieldValue) (v0 : Option FieldValue) rest,
        (elemsTokens es).length + 1 < fuel →
        unmarshalJsArrayLoop fuel fd sl v0 (elemsTokens es ++ .endArr :: rest)
          = .ok ((sl ++ (if fd.repeated then somesOf rs else []),
                  lastD rs v0), rest) := by
  intro es
  induction es with
  | nil =>
    intro rs hp fuel sl v0 rest h
    cases rs with
    | cons r rs => exact absurd hp (by simp [ElemsParse])
    | nil =>
      match fuel, h with
      | fuel+1, _ =>
        simp [elemsTokens, unmarshalJsArrayLoop, hasNext, endArray, expect,
          poll, lastD, somesOf]
  | cons v tl ih =>
    intro rs hp fuel sl v0 rest h
    cases rs with
    | nil => exact absurd hp (by simp [ElemsParse])
    | cons r rs =>
      obtain ⟨hv, htl⟩ := hp
      simp only [elemsTokens, List.length_append, List.append_assoc] at h ⊢
      match fuel, h with
      | fuel+1, h =>
        have hvb : v.toTokens.length < fuel := by omega
        have htlb : (elemsTokens tl).length + 1 < fuel := by
          have := toTokens_length_pos v; omega
        simp only [unmarshalJsArrayLoop]
        rw [hasNext_value v, if_pos rfl]
        rw [hv fuel _ hvb]
        dsimp only
        cases r with
        | none =>
          rw [ih rs htl fuel sl none rest htlb]
          simp only [lastD, somesOf]
        | some x =>
          cases hrep : fd.repeated with
          | true =>
            simp only [hrep]
            rw [ih rs htl fuel (sl ++ [x]) (some x) rest htlb]
            simp [hrep, lastD, somesOf]
          | false =>
            simp only [hrep]
            rw [ih rs htl fuel sl (some x) rest htlb]
            simp [hrep, lastD, somesOf]

theorem feq_eq {a b : FieldValue} : feq a b = true → a = b := by
  cases a <;> cases b <;> simp [feq]

theorem feqOpt_eq {a b : Option FieldValue} : feqOpt a b = true → a = b := by
  cases a <;> cases b <;> simp [feqOpt]
  exact fun h => feq_eq h

/-- Reading a map after one Go-style insertion. -/
theorem mapLookup_insert (l : List (Option FieldValue × Option FieldValue))
    (k v k2 : Option FieldValue) :
    mapLookup (mapInsert l k v) k2 =
      if feqOpt k k2 then some v else mapLookup l k2 := by
  induction l with
  | nil =>
    simp only [mapInsert, mapLookup, List.find?]
    cases h : feqOpt k k2 <;> simp [h]
  | cons p tl ih =>
    obtain ⟨k0, v0⟩ := p
    simp only [mapInsert]
    cases h0 : feqOpt k0 k with
    | true =>
      have : k0 = k := feqOpt_eq h0
      subst this
      simp only [if_pos rfl]
      simp only [mapLookup, List.find?]
      cases h2 : feqOpt k0 k2 <;> simp [h2, mapLookup]
    | false =>
      simp only [Bool.false_eq_true, if_false]
      simp only [mapLookup, List.find?]
      cases h2 : feqOpt k0 k2 with
      | true =>
        have hk02 : k0 = k2 := feqOpt_eq h2
        cases hkk2 : feqOpt k k2 with
        | true =>
          have : k = k2 := feqOpt_eq hkk2
          subst this
          subst hk02
          rw [h2] at h0
          exact absurd h0 (by simp)
        | false => simp [h2, mapLookup]
      | false =>
        have := ih
        simp only [mapLookup] at this
        simp [h2, this]

theorem mapLookup_foldl (ps : List (Option FieldValue × Option FieldValue))
    (k : Option FieldValue) :
    ∀ acc, mapLookup (ps.foldl (fun a p => mapInsert a p.1 p.2) acc) k =
      match lastVal k ps with
      | some r => some r
      | none => mapLookup acc k := by
  induction ps with
  | nil => intro acc; simp [lastVal]
  | cons p tl ih =>
    intro acc
    obtain ⟨k0, v0⟩ := p
    simp only [List.foldl_cons, ih, lastVal]
    cases hl : lastVal k tl with
    | some r => simp
    | none =>
      simp only [mapLookup_insert]
      cases h0 : feqOpt k0 k <;> simp [h0]

/-- Duplicate keys keep the last inserted value. -/
theorem mapOfPairs_lookup (ps : List (Option FieldValue × Option FieldValue))
    (k : Option FieldValue) :
    mapLookup (mapOfPairs ps) k = lastVal k ps := by
  rw [mapOfPairs, mapLookup_foldl]
  cases lastVal k ps <;> simp [mapLookup, List.find?]

theorem entriesFromMessages_run :
    ∀ (ms : List DynMessage) (ps : List (Option FieldValue × Option FieldValue)),
      EntryPairs ms ps →
      ∀ acc, entriesFromMessages acc (ms.map .vmsg) =
        .ok (ps.foldl (fun a p => mapInsert a p.1 p.2) acc) := by
  intro ms
  induction ms with
  | nil =>
    intro ps hp acc
    cases ps with
    | cons p ps => exact absurd hp (by simp [EntryPairs])
    | nil => rfl
  | cons mm ms ih =>
    intro ps hp acc
    cases ps with
    | nil => exact absurd hp (by simp [EntryPairs])
    | cons p ps =>
      obtain ⟨k, v⟩ := p
      obtain ⟨h1, h2, htl⟩ := hp
      simp only [List.map_cons, entriesFromMessages, h1, h2, List.foldl_cons]
      exact ih ps htl (mapInsert acc k v)

theorem somesOf_map_vmsg (ms : List DynMessage) :
    somesOf (ms.map (fun mm => some (.vmsg mm))) = ms.map .vmsg := by
  induction ms with
  | nil => rfl
  | cons mm ms ih => simp [somesOf, ih]

/-- Parsing a JSON array for a non-map field: after the element loop, a
repeated field stores the collected slice and a non-repeated field keeps
only the last element result. -/
theorem field_parses_array (fd : FieldDesc) (hmap : fd.isMapF = false)
    (es : List JsonValue) (rs : List (Option FieldValue))
    (hp : ElemsParse fd es rs) :
    FieldParses fd (arrTokens es)
      (if fd.repeated then some (.vlist (somesOf rs)) else lastD rs none) := by
  intro fuel rest h
  simp only [arrTokens, List.length_cons, List.length_append,
    List.length_singleton] at h
  match fuel, h with
  | fuel+1, h =>
    have hb : (elemsTokens es).length + 1 < fuel := by omega
    have harr := arrayLoop_run fd es rs hp fuel [] none rest hb
    simp only [arrTokens, List.cons_append, List.append_assoc,
      List.singleton_append]
    simp only [unmarshalJsField, hmap, Bool.and_false, decide_eq_true_eq]
    simp only [if_true]
    have hbeg : beginArray (JsToken.beginArr ::
        (elemsTokens es ++ JsToken.endArr :: ([] ++ rest))) =
        .ok (.beginArr, elemsTokens es ++ JsToken.endArr :: ([] ++ rest)) := rfl
    rw [hbeg]
    dsimp only
    simp only [List.nil_append]
    rw [harr]
    dsimp only
    simp only [List.nil_append, Bool.false_eq_true, if_false]
    cases hrep : fd.repeated <;> simp [hrep]

/-- Parsing a JSON array of entry messages for a map field: the collected
entry messages are turned into a map by reading fields 1 and 2 of each and
inserting in order. -/
theorem field_parses_array_map (fd : FieldDesc) (hmap : fd.isMapF = true)
    (hrep : fd.repeated = true)
    (es : List JsonValue) (ms : List DynMessage)
    (ps : List (Option FieldValue × Option FieldValue))
    (hp : ElemsParse fd es (ms.map (fun mm => some (.vmsg mm))))
    (hpp : EntryPairs ms ps) :
    FieldParses fd (arrTokens es) (some (.vmap (mapOfPairs ps))) := by
  intro fuel rest h
  simp only [arrTokens, List.length_cons, List.length_append,
    List.length_singleton] at h
  match fuel, h with
  | fuel+1, h =>
    have hb : (elemsTokens es).length + 1 < fuel := by omega
    have harr := arrayLoop_run fd es _ hp fuel [] none rest hb
    simp only [arrTokens, List.cons_append, List.append_assoc,
      List.singleton_append]
    simp only [unmarshalJsField, hmap, Bool.and_true, decide_eq_true_eq]
    simp only [if_true]
    have hbeg : beginArray (JsToken.beginArr ::
        (elemsTokens es ++ JsToken.endArr :: ([] ++ rest))) =
        .ok (.beginArr, elemsTokens es ++ JsToken.endArr :: ([] ++ rest)) := rfl
    rw [hbeg]
    dsimp only
    simp only [List.nil_append]
    rw [harr]
    dsimp only
    simp only [List.nil_append, hrep, if_true, somesOf_map_vmsg]
    rw [entriesFromMessages_run ms ps hpp []]
    rfl

/-- Parsing a bare (non-array) value for a repeated field stores a singleton
slice around the element result. -/
theorem field_parses_bare (fd : FieldDesc) (hmap : fd.isMapF = false)
    (hrep : fd.repeated = true) (v : JsonValue) (x : FieldValue)
    (hnotarr : isArrV v = false)
    (hp : ElemParses fd v.toTokens (some x)) :
    FieldParses fd v.toTokens (some (.vlist [x])) := by
  intro fuel rest h
  match fuel, h with
  | fuel+1, h =>
    have hb : v.toTokens.length < fuel := by omega
    have he := hp fuel rest hb
    cases v with
    | null =>
      have h0 := hp 2 [] (by simp [JsonValue.toTokens])
      simp only [JsonValue.toTokens] at h0
      have : unmarshalJsFieldElement 2 fd ([JsToken.null] ++ []) =
          .ok (none, []) := rfl
      rw [this] at h0
      exact absurd h0 (by simp)
    | jarr l => exact absurd hnotarr (by simp [isArrV])
    | jbool b =>
      simp only [JsonValue.toTokens, List.cons_append, List.nil_append] at he ⊢
      simp only [unmarshalJsField, hmap, Bool.and_false, he]
      simp [hrep]
    | jnum s =>
      simp only [JsonValue.toTokens, List.cons_append, List.nil_append] at he ⊢
      simp only [unmarshalJsField, hmap, Bool.and_false, he]
      simp [hrep]
    | jstr s =>
      simp only [JsonValue.toTokens, List.cons_append, List.nil_append] at he ⊢
      simp only [unmarshalJsField, hmap, Bool.and_false, he]
      simp [hrep]
    | jobj o =>
      simp only [JsonValue.toTokens, List.cons_append] at he ⊢
      simp only [unmarshalJsField, hmap, Bool.and_false, he]
      simp [hrep]

theorem nextObjectKey_str (k : String) (ts : List JsToken) :
    nextObjectKey (.str k :: ts) = .ok (k, ts) := rfl

/-- Helper for the unknown-key claim: prepending an object member whose key
resolves to no field descriptor changes nothing about the parse result — the
member's value is structurally consumed and discarded. -/
theorem msgParses_skip_unknown (m res : DynMessage) (k : String)
    (v : JsonValue) (ps : JsonObj)
    (hfind : findFieldByName m.desc k = none)
    (hp : MsgParses m (objTokens ps) res) :
    MsgParses m (objTokens (.cons k v ps)) res := by
  intro fuel rest h
  simp only [objTokens, JsonObj.toTokens, List.length_cons, List.length_append,
    List.length_singleton] at h
  match fuel, h with
  | g+1, h =>
    match g, h with
    | g2+1, h =>
      have hv1 := toTokens_length_pos v
      simp only [objTokens, JsonObj.toTokens, List.cons_append,
        List.append_assoc, List.singleton_append, List.nil_append]
      rw [unmarshalJson_cons_beginObj]
      simp only [unmarshalJsonLoop]
      rw [show hasNext (JsToken.str k ::
        (v.toTokens ++ (ps.toTokens ++ JsToken.endObj :: rest))) = true from rfl]
      rw [if_pos rfl]
      rw [nextObjectKey_str]
      dsimp only
      rw [hfind]
      rw [skip_value v g2 _ (by omega)]
      dsimp only
      have hloop := jsonLoop_of_msgParses m res ps hp g2 rest (by omega)
      exact hloop

theorem expect_tail {p : JsToken → Bool} {d : Option JsToken} {e : String}
    {ts ts2 : List JsToken} {t : JsToken}
    (h : expect p d e ts = .ok (t, ts2)) : ∃ t0, ts = t0 :: ts2 := by
  cases ts with
  | nil => simp [expect, poll] at h
  | cons t0 tl =>
    refine ⟨t0, ?_⟩
    simp only [expect, poll] at h
    split at h
    · split at h
      · simp_all
      · split at h <;> simp_all
    · split at h <;> simp_all

theorem nextString_tail {ts ts2 : List JsToken} {s : String}
    (h : nextString ts = .ok (s, ts2)) : ∃ t0, ts = t0 :: ts2 := by
  simp only [nextString] at h
  split at h <;> try simp_all
  next heq =>
    obtain ⟨t0, h0⟩ := expect_tail heq
    obtain ⟨rfl, rfl⟩ := h
    exact ⟨t0, h0⟩

theorem nextObjectKey_tail {ts ts2 : List JsToken} {s : String}
    (h : nextObjectKey ts = .ok (s, ts2)) : ∃ t0, ts = t0 :: ts2 :=
  nextString_tail h

theorem nextBool_tail {ts ts2 : List JsToken} {b : Bool}
    (h : nextBool ts = .ok (b, ts2)) : ∃ t0, ts = t0 :: ts2 := by
  simp only [nextBool] at h
  split at h <;> try simp_all
  next heq =>
    obtain ⟨t0, h0⟩ := expect_tail heq
    obtain ⟨rfl, rfl⟩ := h
    exact ⟨t0, h0⟩

theorem nextNumber_tail {ts ts2 : List JsToken} {s : String}
    (h : nextNumber ts = .ok (s, ts2)) : ∃ t0, ts = t0 :: ts2 := by
  simp only [nextNumber] at h
  split at h <;> try simp_all
  next heq =>
    obtain ⟨t0, h0⟩ := expect_tail heq
    obtain ⟨rfl, rfl⟩ := h
    exact ⟨t0, h0⟩
  next heq =>
    obtain ⟨t0, h0⟩ := expect_tail heq
    obtain ⟨rfl, rfl⟩ := h
    exact ⟨t0, h0⟩

theorem nextInt_tail {ts ts2 : List JsToken} {i : Int}
    (h : nextInt ts = .ok (i, ts2)) : ∃ t0, ts = t0 :: ts2 := by
  simp only [nextInt] at h
  split at h <;> try simp_all
  next s tl heq =>
    split at h <;> simp_all
    exact nextNumber_tail heq

theorem nextUint_tail {ts ts2 : List JsToken} {n : Nat}
    (h : nextUint ts = .ok (n, ts2)) : ∃ t0, ts = t0 :: ts2 := by
  simp only [nextUint] at h
  split at h <;> try simp_all
  next s tl heq =>
    split at h <;> simp_all
    exact nextNumber_tail heq

theorem nextFloat_tail {ts ts2 : List JsToken} {s : String}
    (h : nextFloat ts = .ok (s, ts2)) : ∃ t0, ts = t0 :: ts2 := by
  simp only [nextFloat] at h
  split at h <;> try simp_all
  next s0 tl heq =>
    split at h <;> simp_all
    exact nextNumber_tail heq

theorem tail_subset {α : Type} {t : α} {tl : List α} : tl ⊆ t :: tl :=
  List.subset_cons_of_subset t (fun _ h => h)

theorem tail_subset_of {α : Type} {ts tl : List α} {t : α}
    (h : ts = t :: tl) : tl ⊆ ts := by
  subst h; exact tail_subset

theorem noConfExcept {E A : Type} {e : E} {r : A} :
    Except.error e = Except.ok r → False := fun h => Except.noConfusion h

/-- Every decoding function only consumes from the front of the stream: the
stream position it returns points into the input stream (as a subset of its
tokens, which is all the frame argument below needs).  Proved for the whole
mutually recursive family at once by induction on fuel; for the `skip`
family the returned position is constrained even on error, matching its use
in `unmarshalJson` where the error is discarded. -/
theorem streamShrink : ∀ fuel : Nat,
    (∀ ts, (skip fuel ts).2 ⊆ ts) ∧
    (∀ ts, (skipArray fuel ts).2 ⊆ ts) ∧
    (∀ ts, (skipObject fuel ts).2 ⊆ ts) ∧
    (∀ m ts r, unmarshalJson fuel m ts = .ok r → r.2 ⊆ ts) ∧
    (∀ m ts r, unmarshalJsonLoop fuel m ts = .ok r → r.2 ⊆ ts) ∧
    (∀ fd ts r, unmarshalJsField fuel fd ts = .ok r → r.2 ⊆ ts) ∧
    (∀ kfd vfd mp ts r,
      unmarshalJsMapLoop fuel kfd vfd mp ts = .ok r → r.2 ⊆ ts) ∧
    (∀ fd sl v ts r,
      unmarshalJsArrayLoop fuel fd sl v ts = .ok r → r.2 ⊆ ts) ∧
    (∀ fd ts r, unmarshalJsFieldElement fuel fd ts = .ok r → r.2 ⊆ ts) := by
  intro fuel
  induction fuel with
  | zero =>
    refine ⟨?_, ?_, ?_, ?_, ?_, ?_, ?_, ?_, ?_⟩ <;>
      simp [skip, skipArray, skipObject, unmarshalJson, unmarshalJsonLoop,
        unmarshalJsField, unmarshalJsMapLoop, unmarshalJsArrayLoop,
        unmarshalJsFieldElement]
  | succ fuel ih =>
    obtain ⟨ihs, ihsa, ihso, ihj, ihl, ihf, ihm, iha, ihe⟩ := ih
    have hs : ∀ ts, (skip (fuel+1) ts).2 ⊆ ts := by
      intro ts
      cases ts with
      | nil => simp [skip]
      | cons t tl =>
        cases t with
        | beginArr => exact (ihsa tl).trans tail_subset
        | beginObj => exact (ihso tl).trans tail_subset
        | endObj => exact tail_subset
        | endArr => exact tail_subset
        | null => exact tail_subset
        | tbool b => exact tail_subset
        | num s => exact tail_subset
        | str s => exact tail_subset
    have hsa : ∀ ts, (skipArray (fuel+1) ts).2 ⊆ ts := by
      intro ts
      simp only [skipArray]
      split
      · rcases hsk : skip fuel ts with ⟨o, ts1⟩
        have h1 : ts1 ⊆ ts := by
          have := ihs ts; rw [hsk] at this; exact this
        cases o with
        | some e => simpa using h1
        | none => exact (ihsa ts1).trans h1
      · cases ts with
        | nil => simp
        | cons t tl =>
          dsimp only
          split
          · exact tail_subset
          · exact tail_subset
    have hso : ∀ ts, (skipObject (fuel+1) ts).2 ⊆ ts := by
      intro ts
      simp only [skipObject]
      split
      · rcases hsk : skip fuel ts with ⟨o, ts1⟩
        have h1 : ts1 ⊆ ts := by
          have := ihs ts; rw [hsk] at this; exact this
        cases o with
        | some e => simpa using h1
        | none =>
          dsimp only
          rcases hsk2 : skip fuel ts1 with ⟨o2, ts2⟩
          have h2 : ts2 ⊆ ts1 := by
            have := ihs ts1; rw [hsk2] at this; exact this
          cases o2 with
          | some e => simpa using h2.trans h1
          | none => exact (ihso ts2).trans (h2.trans h1)
      · cases ts with
        | nil => simp
        | cons t tl =>
          dsimp only
          split
          · exact tail_subset
          · exact tail_subset
    have hj : ∀ m ts r, unmarshalJson (fuel+1) m ts = .ok r → r.2 ⊆ ts := by
      intro m ts r h
      cases ts with
      | nil => exact absurd h (by simp [unmarshalJson])
      | cons t tl =>
        simp only [unmarshalJson] at h
        split at h
        · cases h; exact tail_subset
        · split at h
          · exact absurd h (by simp)
          · rename_i t1 ts1 hbeg
            obtain ⟨t0, h0⟩ := expect_tail hbeg
            exact (ihl _ _ _ h).trans (tail_subset_of h0)
    have hl : ∀ m ts r, unmarshalJsonLoop (fuel+1) m ts = .ok r → r.2 ⊆ ts := by
      intro m ts r h
      simp only [unmarshalJsonLoop] at h
      split at h
      · split at h
        · exact absurd h (by simp)
        · rename_i f ts1 hkey
          obtain ⟨t0, h0⟩ := nextObjectKey_tail hkey
          have hts1 : ts1 ⊆ ts := tail_subset_of h0
          split at h
          · rcases hsk : skip fuel ts1 with ⟨o, ts2⟩
            rw [hsk] at h
            have h2 : ts2 ⊆ ts1 := by
              have := ihs ts1; rw [hsk] at this; exact this
            simp only at h
            split at h
            · exact absurd h (by simp)
            · exact (ihl _ _ _ h).trans (h2.trans hts1)
          · split at h
            · exact absurd h (by simp)
            · rename_i fd v2 ts2 hfld
              exact (ihl _ _ _ h).trans ((ihf _ _ _ hfld).trans hts1)
            · rename_i fd ts2 hfld
              exact (ihl _ _ _ h).trans ((ihf _ _ _ hfld).trans hts1)
      · split at h
        · exact absurd h (by simp)
        · rename_i t1 ts1 hend
          cases h
          obtain ⟨t0, h0⟩ := expect_tail hend
          exact tail_subset_of h0
    have hf : ∀ fd ts r, unmarshalJsField (fuel+1) fd ts = .ok r → r.2 ⊆ ts := by
      intro fd ts r h
      cases ts with
      | nil => exact absurd h (by simp [unmarshalJsField])
      | cons t tl =>
        simp only [unmarshalJsField] at h
        split at h
        · cases h; exact tail_subset
        · split at h
          · -- map-object branch
            split at h
            · exact absurd h (by simp)
            · split at h <;> try exact (noConfExcept h).elim
              split at h
              · exact absurd h (by simp)
              · rename_i t1 ts1 hbeg
                split at h
                · exact absurd h (by simp)
                · rename_i mp ts2 hmp
                  cases h
                  obtain ⟨t0, h0⟩ := expect_tail hbeg
                  exact (ihm _ _ _ _ _ hmp).trans (tail_subset_of h0)
          · split at h
            · -- array branch
              split at h
              · exact absurd h (by simp)
              · rename_i t1 ts1 hbeg
                split at h
                · exact absurd h (by simp)
                · rename_i sl v2 ts2 hloop
                  obtain ⟨t0, h0⟩ := expect_tail hbeg
                  have hts2 : ts2 ⊆ t :: tl :=
                    (iha _ _ _ _ _ hloop).trans (tail_subset_of h0)
                  split at h
                  · split at h
                    · exact absurd h (by simp)
                    · cases h; exact hts2
                  · split at h
                    · cases h; exact hts2
                    · cases h; exact hts2
            · -- bare element branch
              split at h
              · exact absurd h (by simp)
              · rename_i ts1 helem
                cases h
                exact ihe _ _ _ helem
              · rename_i v2 ts1 helem
                have hts1 : ts1 ⊆ t :: tl := ihe _ _ _ helem
                split at h
                · cases h; exact hts1
                · cases h; exact hts1
    have hm : ∀ kfd vfd mp ts r,
        unmarshalJsMapLoop (fuel+1) kfd vfd mp ts = .ok r → r.2 ⊆ ts := by
      intro kfd vfd mp ts r h
      simp only [unmarshalJsMapLoop] at h
      split at h
      · split at h
        · exact absurd h (by simp)
        · rename_i kk ts1 hk
          split at h
          · exact absurd h (by simp)
          · rename_i vv ts2 hv
            exact (ihm _ _ _ _ _ h).trans ((ihe _ _ _ hv).trans (ihe _ _ _ hk))
      · split at h
        · exact absurd h (by simp)
        · rename_i t1 ts1 hend
          cases h
          obtain ⟨t0, h0⟩ := expect_tail hend
          exact tail_subset_of h0
    have ha : ∀ fd sl v ts r,
        unmarshalJsArrayLoop (fuel+1) fd sl v ts = .ok r → r.2 ⊆ ts := by
      intro fd sl v ts r h
      simp only [unmarshalJsArrayLoop] at h
      split at h
      · split at h
        · exact absurd h (by simp)
        · rename_i v2 ts1 he2
          have hts1 : ts1 ⊆ ts := ihe _ _ _ he2
          split at h
          · exact (iha _ _ _ _ _ h).trans hts1
          · exact (iha _ _ _ _ _ h).trans hts1
      · split at h
        · exact absurd h (by simp)
        · rename_i t1 ts1 hend
          cases h
          obtain ⟨t0, h0⟩ := expect_tail hend
          exact tail_subset_of h0
    have he : ∀ fd ts r,
        unmarshalJsFieldElement (fuel+1) fd ts = .ok r → r.2 ⊆ ts := by
      intro fd ts r h
      cases ts with
      | nil => exact absurd h (by simp [unmarshalJsFieldElement])
      | cons t tl =>
        simp only [unmarshalJsFieldElement] at h
        split at h
        · cases h; exact tail_subset
        · cases htyp : fd.typ
          case tInt32 =>
            rw [htyp] at h
            dsimp only at h
            split at h
            · exact (noConfExcept h).elim
            · rename_i v0 ts1 hrd
              split at h
              · exact (noConfExcept h).elim
              · cases h
                obtain ⟨t0, h0⟩ := nextInt_tail hrd
                exact tail_subset_of h0
          case tSint32 =>
            rw [htyp] at h
            dsimp only at h
            split at h
            · exact (noConfExcept h).elim
            · rename_i v0 ts1 hrd
              split at h
              · exact (noConfExcept h).elim
              · cases h
                obtain ⟨t0, h0⟩ := nextInt_tail hrd
                exact tail_subset_of h0
          case tSfixed32 =>
            rw [htyp] at h
            dsimp only at h
            split at h
            · exact (noConfExcept h).elim
            · rename_i v0 ts1 hrd
              split at h
              · exact (noConfExcept h).elim
              · cases h
                obtain ⟨t0, h0⟩ := nextInt_tail hrd
                exact tail_subset_of h0
          case tInt64 =>
            rw [htyp] at h
            dsimp only at h
            split at h
            · exact (noConfExcept h).elim
            · rename_i v0 ts1 hrd
              cases h
              obtain ⟨t0, h0⟩ := nextInt_tail hrd
              exact tail_subset_of h0
          case tSint64 =>
            rw [htyp] at h
            dsimp only at h
            split at h
            · exact (noConfExcept h).elim
            · rename_i v0 ts1 hrd
              cases h
              obtain ⟨t0, h0⟩ := nextInt_tail hrd
              exact tail_subset_of h0
          case tSfixed64 =>
            rw [htyp] at h
            dsimp only at h
            split at h
            · exact (noConfExcept h).elim
            · rename_i v0 ts1 hrd
              cases h
              obtain ⟨t0, h0⟩ := nextInt_tail hrd
              exact tail_subset_of h0
          case tUint32 =>
            rw [htyp] at h
            dsimp only at h
            split at h
            · exact (noConfExcept h).elim
            · rename_i v0 ts1 hrd
              split at h
              · exact (noConfExcept h).elim
              · cases h
                obtain ⟨t0, h0⟩ := nextUint_tail hrd
                exact tail_subset_of h0
          case tFixed32 =>
            rw [htyp] at h
            dsimp only at h
            split at h
            · exact (noConfExcept h).elim
            · rename_i v0 ts1 hrd
              split at h
              · exact (noConfExcept h).elim
              · cases h
                obtain ⟨t0, h0⟩ := nextUint_tail hrd
                exact tail_subset_of h0
          case tUint64 =>
            rw [htyp] at h
            dsimp only at h
            split at h
            · exact (noConfExcept h).elim
            · rename_i v0 ts1 hrd
              cases h
              obtain ⟨t0, h0⟩ := nextUint_tail hrd
              exact tail_subset_of h0
          case tFixed64 =>
            rw [htyp] at h
            dsimp only at h
            split at h
            · exact (noConfExcept h).elim
            · rename_i v0 ts1 hrd
              cases h
              obtain ⟨t0, h0⟩ := nextUint_tail hrd
              exact tail_subset_of h0
          case tBool =>
            rw [htyp] at h
            dsimp only at h
            split at h
            · exact (noConfExcept h).elim
            · rename_i v0 ts1 hrd
              cases h
              obtain ⟨t0, h0⟩ := nextBool_tail hrd
              exact tail_subset_of h0
          case tFloat =>
            rw [htyp] at h
            dsimp only at h
            split at h
            · exact (noConfExcept h).elim
            · rename_i v0 ts1 hrd
              cases h
              obtain ⟨t0, h0⟩ := nextFloat_tail hrd
              exact tail_subset_of h0
          case tDouble =>
            rw [htyp] at h
            dsimp only at h
            split at h
            · exact (noConfExcept h).elim
            · rename_i v0 ts1 hrd
              cases h
              obtain ⟨t0, h0⟩ := nextFloat_tail hrd
              exact tail_subset_of h0
          case tString =>
            rw [htyp] at h
            dsimp only at h
            exact (noConfExcept h).elim
          case tBytes =>
            rw [htyp] at h
            dsimp only at h
            exact (noConfExcept h).elim
          case tEnum =>
            rw [htyp] at h
            dsimp only at h
            split at h
            · exact (noConfExcept h).elim
            · split at h
              · exact (noConfExcept h).elim
              · rename_i ed s0 ts1 hnum
                obtain ⟨t0, h0⟩ := nextNumber_tail hnum
                split at h
                · split at h
                  · cases h; exact tail_subset_of h0
                  · exact (noConfExcept h).elim
                · split at h
                  · exact (noConfExcept h).elim
                  · cases h; exact tail_subset_of h0
          case tMessage =>
            rw [htyp] at h
            dsimp only at h
            split at h
            · exact (noConfExcept h).elim
            · split at h
              · exact (noConfExcept h).elim
              · rename_i md mm ts1 hj2
                cases h
                exact ihj _ _ _ hj2
          case tGroup =>
            rw [htyp] at h
            dsimp only at h
            split at h
            · exact (noConfExcept h).elim
            · split at h
              · exact (noConfExcept h).elim
              · rename_i md mm ts1 hj2
                cases h
                exact ihj _ _ _ hj2
    exact ⟨hs, hsa, hso, hj, hl, hf, hm, ha, he⟩

theorem tokenKeys_subset {ts1 ts2 : List JsToken} (h : ts1 ⊆ ts2) :
    tokenKeys ts1 ⊆ tokenKeys ts2 := by
  intro k hk
  simp only [tokenKeys, List.mem_filterMap] at hk ⊢
  obtain ⟨t, ht, hf⟩ := hk
  exact ⟨t, h ht, hf⟩

theorem nextObjectKey_mem {ts ts2 : List JsToken} {k : String}
    (h : nextObjectKey ts = .ok (k, ts2)) : k ∈ tokenKeys ts := by
  cases ts with
  | nil => simp [nextObjectKey, nextString, expect, poll] at h
  | cons t0 tl =>
    cases t0 <;>
      simp_all [nextObjectKey, nextString, expect, poll, tokenKeys]

theorem lookup_store_ne (l : List (Nat × FieldValue)) (n2 n : Nat)
    (v : FieldValue) (hne : n2 ≠ n) :
    lookupNum (storeNum l n2 v) n = lookupNum l n := by
  induction l with
  | nil => simp [storeNum, lookupNum, List.find?, hne]
  | cons p tl ih =>
    obtain ⟨k, w⟩ := p
    simp only [storeNum]
    split
    · next hk =>
      subst hk
      simp [lookupNum, List.find?, hne, Ne.symm hne]
    · simp only [lookupNum, List.find?] at ih ⊢
      cases hkn : (decide (k = n)) <;> simp_all

theorem lookup_remove_ne (l : List (Nat × FieldValue)) (n2 n : Nat)
    (hne : n2 ≠ n) :
    lookupNum (removeNum l n2) n = lookupNum l n := by
  induction l with
  | nil => simp [removeNum, lookupNum]
  | cons p tl ih =>
    obtain ⟨k, w⟩ := p
    simp only [removeNum, List.filter] at ih ⊢
    cases hk2 : (decide (k = n2))
    · simp only [Bool.not_false]
      simp only [lookupNum, List.find?] at ih ⊢
      cases hkn : (decide (k = n)) <;> simp_all [removeNum]
    · have : k = n2 := by simpa using hk2
      subst this
      simp only [Bool.not_true]
      rw [ih]
      simp [lookupNum, List.find?, hne]

theorem lookup_remove_self (l : List (Nat × FieldValue)) (n : Nat) :
    lookupNum (removeNum l n) n = none := by
  induction l with
  | nil => simp [removeNum, lookupNum]
  | cons p tl ih =>
    obtain ⟨k, w⟩ := p
    simp only [removeNum, List.filter] at ih ⊢
    cases hk : (decide (k = n))
    · simp only [Bool.not_false]
      simp only [lookupNum, List.find?, hk]
      exact ih
    · simp only [Bool.not_true]
      exact ih

theorem internalSetField_desc (m : DynMessage) (fd : FieldDesc)
    (v : FieldValue) : (internalSetField m fd v).desc = m.desc := rfl

theorem deleteField_desc (m : DynMessage) (n : Nat) :
    (deleteField m n).desc = m.desc := rfl

/-- Frame property of the object-member loop: a field number that no key of
the stream resolves to is untouched — its stored value afterwards is its
stored value before, and the descriptor never changes. -/
theorem frame_loop : ∀ (fuel : Nat) (m : DynMessage) (ts : List JsToken)
    (m2 : DynMessage) (ts2 : List JsToken),
    unmarshalJsonLoop fuel m ts = .ok (m2, ts2) →
    ∀ n : Nat,
    (∀ k fd, k ∈ tokenKeys ts → findFieldByName m.desc k = some fd →
      fd.number ≠ n) →
    m2.desc = m.desc ∧ lookupNum m2.values n = lookupNum m.values n := by
  intro fuel
  induction fuel with
  | zero => intro m ts m2 ts2 h; exact absurd h (by simp [unmarshalJsonLoop])
  | succ fuel ih =>
    intro m ts m2 ts2 h n hk
    simp only [unmarshalJsonLoop] at h
    split at h
    · split at h
      · exact absurd h (by simp)
      · rename_i f ts1 hkey
        have hmem : f ∈ tokenKeys ts := nextObjectKey_mem hkey
        obtain ⟨t0, h0⟩ := nextObjectKey_tail hkey
        have hts1 : ts1 ⊆ ts := tail_subset_of h0
        split at h
        · rename_i hfind
          rcases hsk : skip fuel ts1 with ⟨o, ts3⟩
          rw [hsk] at h
          have hsk3 : ts3 ⊆ ts1 := by
            have := (streamShrink fuel).1 ts1; rw [hsk] at this; exact this
          simp only at h
          split at h
          · exact absurd h (by simp)
          · exact ih m _ m2 ts2 h n (fun k fd hkm hf =>
              hk k fd (tokenKeys_subset (hsk3.trans hts1) hkm) hf)
        · rename_i fd hfind
          have hnum : fd.number ≠ n := hk f fd hmem hfind
          split at h
          · exact absurd h (by simp)
          · rename_i v2 ts3 hfld
            have hts3 : ts3 ⊆ ts :=
              ((streamShrink fuel).2.2.2.2.2.1 _ _ _ hfld).trans hts1
            have hrec := ih _ _ m2 ts2 h n (fun k fd2 hkm hf =>
              hk k fd2 (tokenKeys_subset hts3 hkm)
                (by rwa [internalSetField_desc] at hf))
            rw [internalSetField_desc] at hrec
            obtain ⟨hd, hv⟩ := hrec
            refine ⟨hd, ?_⟩
            rw [hv]
            exact lookup_store_ne m.values fd.number n _ hnum
          · rename_i ts3 hfld
            have hts3 : ts3 ⊆ ts :=
              ((streamShrink fuel).2.2.2.2.2.1 _ _ _ hfld).trans hts1
            have hrec := ih _ _ m2 ts2 h n (fun k fd2 hkm hf =>
              hk k fd2 (tokenKeys_subset hts3 hkm)
                (by rwa [deleteField_desc] at hf))
            rw [deleteField_desc] at hrec
            obtain ⟨hd, hv⟩ := hrec
            refine ⟨hd, ?_⟩
            rw [hv]
            exact lookup_remove_ne m.values fd.number n hnum
    · split at h
      · exact absurd h (by simp)
      · cases h
        exact ⟨rfl, rfl⟩

/-- Frame property of the whole merge parse: a field number that no key of
the input resolves to keeps its previous stored value. -/
theorem frame_merge (m m2 : DynMessage) (ts : List JsToken) (n : Nat)
    (h : UnmarshalMergeJSON m ts = .ok m2)
    (hk : ∀ k fd, k ∈ tokenKeys ts → findFieldByName m.desc k = some fd →
      fd.number ≠ n) :
    m2.desc = m.desc ∧ lookupNum m2.values n = lookupNum m.values n := by
  simp only [UnmarshalMergeJSON] at h
  split at h
  · exact absurd h (by simp)
  · rename_i m3 rest hjson
    split at h
    · cases h
      cases hts : ts with
      | nil => rw [hts] at hjson; simp [unmarshalJson] at hjson
      | cons t0 tl =>
        rw [hts] at hjson
        simp only [unmarshalJson] at hjson
        split at hjson
        · cases hjson; exact ⟨rfl, rfl⟩
        · split at hjson
          · exact absurd hjson (by simp)
          · rename_i t1 ts1 hbeg
            obtain ⟨t2, h2⟩ := expect_tail hbeg
            have hts1 : ts1 ⊆ ts := by rw [hts]; exact tail_subset_of h2
            exact frame_loop _ m ts1 _ _ hjson n (fun k fd hkm hf =>
              hk k fd (tokenKeys_subset hts1 hkm) hf)
    · exact absurd h (by simp)

/-- C1: the round-trip claim fails on this code.  The spec-modelled encoder
(the source's `marshalJSON` body is a TODO stub) turns a message whose only
set field is the scalar string field `s = "x"` into the JSON object with the
single member `"s": "x"`; feeding those tokens back to the source's decoder
does not reproduce the message — it fails with the "Unknown field type"
error, because the switch in `unmarshalJsFieldElement` has no `TYPE_STRING`
(nor `TYPE_BYTES`) case and both fall into its default branch. -/
theorem c1_string_roundtrip_fails :
    marshalJSONspec strMsg = .jobj (.cons "s" (.jstr "x") .nil) ∧
    UnmarshalMergeJSON (freshMessage sampleDesc)
        ((marshalJSONspec strMsg).toTokens) =
      .error (.unknownFieldType .tString) := by
  exact ⟨rfl, rfl⟩

/-- C5: once the top-level value has been consumed, `UnmarshalMergeJSON`
succeeds exactly when nothing remains; any non-empty remainder fails with
the trailing-data error ("Superfluous data found after JSON object")
carrying that remainder. -/
theorem c5_trailing_data (m res : DynMessage) (toks : List JsToken)
    (hp : MsgParses m toks res) :
    UnmarshalMergeJSON m toks = .ok res ∧
    (∀ extra : List JsToken, extra ≠ [] →
      UnmarshalMergeJSON m (toks ++ extra) = .error (.trailingData extra)) := by
  constructor
  · have h2 := hp (toks.length + 1) [] (by omega)
    rw [List.append_nil] at h2
    simp only [UnmarshalMergeJSON, h2]
  · intro extra hne
    have h2 := hp ((toks ++ extra).length + 1) extra
      (by simp only [List.length_append]; omega)
    simp only [UnmarshalMergeJSON, h2]
    cases extra with
    | nil => exact absurd rfl hne
    | cons e etl => rfl

/-- C7: a JSON null for any field, of any declared type, deletes the field's
stored value: afterwards the field number is absent from the message (no
null marker, no zero value). -/
theorem c7_null_clears (m : DynMessage) (fd : FieldDesc)
    (hfind : findFieldByName m.desc fd.name = some fd) :
    UnmarshalMergeJSON m [.beginObj, .str fd.name, .null, .endObj] =
      .ok (deleteField m fd.number) ∧
    lookupNum (deleteField m fd.number).values fd.number = none := by
  refine ⟨?_, lookup_remove_self _ _⟩
  have e1 : UnmarshalMergeJSON m [.beginObj, .str fd.name, .null, .endObj] =
      match unmarshalJsonLoop 4 m [.str fd.name, .null, .endObj] with
      | .error e => .error e
      | .ok (m2, rest) =>
        match rest with
        | [] => .ok m2
        | _ :: _ => .error (.trailingData rest) := rfl
  have e2 : unmarshalJsonLoop 4 m [.str fd.name, .null, .endObj] =
      match findFieldByName m.desc fd.name with
      | none =>
        if (skip 3 [JsToken.null, .endObj]).1 = some .outOfFuel then
          .error .outOfFuel
        else unmarshalJsonLoop 3 m (skip 3 [JsToken.null, .endObj]).2
      | some fd2 =>
        match unmarshalJsField 3 fd2 [.null, .endObj] with
        | .error e => .error e
        | .ok (some v, ts2) => unmarshalJsonLoop 3 (internalSetField m fd2 v) ts2
        | .ok (none, ts2) => unmarshalJsonLoop 3 (deleteField m fd2.number) ts2
      := rfl
  rw [e1, e2, hfind]
  rfl

/-- C8: a top-level JSON input consisting of the single literal null is
accepted without error; merging leaves the message as it was (so a fresh
message stays empty), and the full `UnmarshalJSON` — reset, merge, validate
— returns the cleared message whenever the empty message validates. -/
theorem c8_top_level_null (m : DynMessage) :
    UnmarshalMergeJSON m [.null] = .ok m ∧
    (validateMsg (resetMessage m) = true →
      UnmarshalJSON m [.null] = .ok (resetMessage m) ∧
      (resetMessage m).values = []) := by
  refine ⟨rfl, fun hv => ⟨?_, rfl⟩⟩
  simp only [UnmarshalJSON]
  rw [show UnmarshalMergeJSON (resetMessage m) [.null] = .ok (resetMessage m)
    from rfl]
  dsimp only
  rw [hv]
  rfl

theorem c5_witness :
    UnmarshalMergeJSON sampleMsg [.beginObj, .str "i", .num "1", .endObj] =
      .ok (.mk sampleDesc [(1, .vint32 1)]) ∧
    UnmarshalMergeJSON sampleMsg
        ([.beginObj, .str "i", .num "1", .endObj] ++ [.str "garbage"]) =
      .error (.trailingData [.str "garbage"]) := by
  have hp : MsgParses sampleMsg [.beginObj, .str "i", .num "1", .endObj]
      (.mk sampleDesc [(1, .vint32 1)]) := by
    intro fuel rest h
    simp only [List.length_cons, List.length_nil] at h
    obtain ⟨k, rfl⟩ : ∃ k, fuel = k + 5 := ⟨fuel - 5, by omega⟩
    rfl
  have h := c5_trailing_data sampleMsg (.mk sampleDesc [(1, .vint32 1)])
    [.beginObj, .str "i", .num "1", .endObj] hp
  exact ⟨h.1, h.2 [.str "garbage"] (by simp)⟩

theorem c7_witness :
    UnmarshalMergeJSON (.mk sampleDesc [(1, .vint32 9)])
        [.beginObj, .str fdI32.name, .null, .endObj] =
      .ok (deleteField (.mk sampleDesc [(1, .vint32 9)]) fdI32.number) ∧
    lookupNum
        (deleteField (.mk sampleDesc [(1, .vint32 9)]) fdI32.number).values
        fdI32.number = none :=
  c7_null_clears (.mk sampleDesc [(1, .vint32 9)]) fdI32 rfl

theorem c8_witness :
    UnmarshalMergeJSON (.mk sampleDesc [(1, .vint32 9)]) [.null] =
      .ok (.mk sampleDesc [(1, .vint32 9)]) ∧
    UnmarshalJSON (.mk sampleDesc [(1, .vint32 9)]) [.null] =
      .ok (resetMessage (.mk sampleDesc [(1, .vint32 9)])) := by
  have h := c8_top_level_null (.mk sampleDesc [(1, .vint32 9)])
  exact ⟨h.1, (h.2 rfl).1⟩

/-- C2: decoding a JSON array for a non-repeated, non-map field retains only
the last element's parse result as the field's value, and decoding a bare
(non-array) value for a repeated field yields the singleton slice holding
that value. -/
theorem c2_cardinality_tolerance :
    (∀ (fd : FieldDesc), fd.repeated = false → fd.isMapF = false →
      ∀ (es : List JsonValue) (rs : List (Option FieldValue)),
        ElemsParse fd es rs →
        FieldParses fd (arrTokens es) (lastD rs none)) ∧
    (∀ (fd : FieldDesc), fd.repeated = true → fd.isMapF = false →
      ∀ (v : JsonValue) (x : FieldValue), isArrV v = false →
        ElemParses fd v.toTokens (some x) →
        FieldParses fd v.toTokens (some (.vlist [x]))) := by
  constructor
  · intro fd hrep hmap es rs hp
    have h := field_parses_array fd hmap es rs hp
    rw [hrep] at h
    simpa using h
  · intro fd hrep hmap v x hnot hp
    exact field_parses_bare fd hmap hrep v x hnot hp

theorem c2_witness :
    unmarshalJsField 10 fdI32
        (arrTokens [.jnum "1", .jnum "2", .jnum "3"] ++ []) =
      .ok (some (.vint32 3), []) ∧
    unmarshalJsField 10 fdRep ((JsonValue.jnum "5").toTokens ++ []) =
      .ok (some (.vlist [.vint32 5]), []) := by
  have he1 : ElemParses fdI32 (JsonValue.jnum "1").toTokens
      (some (.vint32 1)) := by
    intro fuel rest h
    simp only [JsonValue.toTokens, List.length_singleton] at h
    obtain ⟨j, rfl⟩ : ∃ j, fuel = j + 2 := ⟨fuel - 2, by omega⟩
    rfl
  have he2 : ElemParses fdI32 (JsonValue.jnum "2").toTokens
      (some (.vint32 2)) := by
    intro fuel rest h
    simp only [JsonValue.toTokens, List.length_singleton] at h
    obtain ⟨j, rfl⟩ : ∃ j, fuel = j + 2 := ⟨fuel - 2, by omega⟩
    rfl
  have he3 : ElemParses fdI32 (JsonValue.jnum "3").toTokens
      (some (.vint32 3)) := by
    intro fuel rest h
    simp only [JsonValue.toTokens, List.length_singleton] at h
    obtain ⟨j, rfl⟩ : ∃ j, fuel = j + 2 := ⟨fuel - 2, by omega⟩
    rfl
  have he5 : ElemParses fdRep (JsonValue.jnum "5").toTokens
      (some (.vint32 5)) := by
    intro fuel rest h
    simp only [JsonValue.toTokens, List.length_singleton] at h
    obtain ⟨j, rfl⟩ : ∃ j, fuel = j + 2 := ⟨fuel - 2, by omega⟩
    rfl
  constructor
  · exact (c2_cardinality_tolerance.1 fdI32 rfl rfl
      [.jnum "1", .jnum "2", .jnum "3"]
      [some (.vint32 1), some (.vint32 2), some (.vint32 3)]
      ⟨he1, he2, he3, trivial⟩) 10 [] (by decide)
  · exact (c2_cardinality_tolerance.2 fdRep rfl rfl
      (.jnum "5") (.vint32 5) rfl he5) 10 [] (by decide)

/-- C6: an object key that resolves to no field descriptor of the message is
skipped structurally together with its value of arbitrary shape: the parse
succeeds and produces exactly the message it would produce without that
member, so the discarded data never reaches the result. -/
theorem c6_unknown_key_skipped (m res : DynMessage) (k : String)
    (v : JsonValue) (ps : JsonObj)
    (hfind : findFieldByName m.desc k = none)
    (hp : MsgParses m (objTokens ps) res) :
    MsgParses m (objTokens (.cons k v ps)) res :=
  msgParses_skip_unknown m res k v ps hfind hp

theorem c6_witness :
    unmarshalJson 20 sampleMsg
      (objTokens (.cons "zzz"
        (.jobj (.cons "deep" (.jarr (.cons (.jnum "1") .nil)) .nil))
        (.cons "i" (.jnum "7") .nil)) ++ []) =
      .ok (.mk sampleDesc [(1, .vint32 7)], []) := by
  have hp : MsgParses sampleMsg (objTokens (.cons "i" (.jnum "7") .nil))
      (.mk sampleDesc [(1, .vint32 7)]) := by
    intro fuel rest h
    simp only [objTokens, JsonObj.toTokens, JsonValue.toTokens,
      List.length_cons, List.length_append, List.length_nil,
      List.length_singleton] at h
    obtain ⟨j, rfl⟩ : ∃ j, fuel = j + 5 := ⟨fuel - 5, by omega⟩
    rfl
  exact (c6_unknown_key_skipped sampleMsg (.mk sampleDesc [(1, .vint32 7)])
    "zzz" (.jobj (.cons "deep" (.jarr (.cons (.jnum "1") .nil)) .nil))
    (.cons "i" (.jnum "7") .nil) rfl hp) 20 [] (by decide)

/-- C3 as stated is false on this code: for an enum field, a string token
that neither parses as a number nor resolves to an enum value does not fail
with a distinct unresolved-enum-value error as the spec's error taxonomy
says — the code returns whatever error `e.Int64()` produced, i.e. the
strconv syntax error for the literal, indistinguishable from a malformed
number on an integer field. -/
theorem c3_counterexample :
    unmarshalJsFieldElement 2 fdEnum [.str "NOPE"] =
      .error (.intParse "NOPE") ∧
    JsError.intParse "NOPE" ≠ JsError.unresolvedEnumValue :=
  ⟨rfl, by decide⟩

/-- C3 (amended): an enum field accepts a JSON number token or a JSON string
token; the text is first parsed as a 64-bit integer (with the int32 range
check yielding `NumericOverflowError`); on parse failure it is resolved as a
value name of the field's enum type; and when that also fails, decoding
fails with the integer-parse error itself — the code raises no separate
unresolved-enum-value error. -/
theorem c3_amended_enum_decoding (fd : FieldDesc) (ed : EnumDesc)
    (htyp : fd.typ = .tEnum) (het : fd.enumType = some ed)
    (s : String) (tok : JsToken) (htok : tok = .num s ∨ tok = .str s)
    (fuel : Nat) (rest : List JsToken) :
    (∀ i : Int, parseInt64 s = .ok i → -(2^31) ≤ i → i ≤ 2^31 - 1 →
      unmarshalJsFieldElement (fuel+1) fd (tok :: rest) =
        .ok (some (.vint32 i), rest)) ∧
    (∀ i : Int, parseInt64 s = .ok i → (i < -(2^31) ∨ 2^31 - 1 < i) →
      unmarshalJsFieldElement (fuel+1) fd (tok :: rest) =
        .error .numericOverflow) ∧
    (∀ e : JsError, parseInt64 s = .error e →
      ∀ ev : EnumValueDesc, findEnumValueByName ed s = some ev →
      unmarshalJsFieldElement (fuel+1) fd (tok :: rest) =
        .ok (some (.vint32 ev.number), rest)) ∧
    (∀ e : JsError, parseInt64 s = .error e →
      findEnumValueByName ed s = none →
      unmarshalJsFieldElement (fuel+1) fd (tok :: rest) = .error e) := by
  have hstep : unmarshalJsFieldElement (fuel+1) fd (tok :: rest) =
      match parseInt64 s with
      | .error e =>
        match findEnumValueByName ed s with
        | some ev => .ok (some (.vint32 ev.number), rest)
        | none => .error e
      | .ok i =>
        if i > 2 ^ 31 - 1 || i < -(2 ^ 31) then .error .numericOverflow
        else .ok (some (.vint32 i), rest) := by
    rcases htok with rfl | rfl
    all_goals
      simp only [unmarshalJsFieldElement]
      rw [if_neg (by simp), htyp]
      dsimp only
      rw [het]
      rfl
  refine ⟨?_, ?_, ?_, ?_⟩
  · intro i hp h1 h2
    rw [hstep, hp]
    dsimp only
    split
    · rename_i hcond
      exfalso
      simp only [Bool.or_eq_true, decide_eq_true_eq] at hcond
      rcases hcond with hc | hc <;> omega
    · rfl
  · intro i hp hbad
    rw [hstep, hp]
    dsimp only
    split
    · rfl
    · rename_i hcond
      exfalso
      simp only [Bool.or_eq_true, decide_eq_true_eq, not_or] at hcond
      rcases hbad with hb | hb <;> omega
  · intro e hp ev hev
    rw [hstep, hp]
    dsimp only
    rw [hev]
  · intro e hp hev
    rw [hstep, hp]
    dsimp only
    rw [hev]

/-- Witness for C3 (amended): on the sample enum field, the name GREEN
resolves to 2, the number 3 passes through, and an out-of-int32 number
overflows. -/
theorem c3_witness :
    unmarshalJsFieldElement 3 fdEnum [.str "GREEN"] =
      .ok (some (.vint32 2), []) ∧
    unmarshalJsFieldElement 3 fdEnum [.num "3"] =
      .ok (some (.vint32 3), []) ∧
    unmarshalJsFieldElement 3 fdEnum [.num "2147483648"] =
      .error .numericOverflow := by
  refine ⟨?_, ?_, ?_⟩
  · exact (c3_amended_enum_decoding fdEnum colorEnum rfl rfl "GREEN"
      (.str "GREEN") (Or.inr rfl) 2 []).2.2.1 (.intParse "GREEN") rfl
      ⟨"GREEN", 2⟩ rfl
  · exact (c3_amended_enum_decoding fdEnum colorEnum rfl rfl "3"
      (.num "3") (Or.inl rfl) 2 []).1 3 rfl (by decide) (by decide)
  · exact (c3_amended_enum_decoding fdEnum colorEnum rfl rfl "2147483648"
      (.num "2147483648") (Or.inl rfl) 2 []).2.1 2147483648 rfl
      (Or.inr (by decide))

/-- C4 as stated is false on this code: a numeric literal outside the
64-bit range on an int64 field does not yield `NumericOverflowError` — the
error raised by `json.Number.Int64` (the strconv range error) propagates
unchanged, since the code only range-checks the already-parsed 64-bit value
for the 32-bit types. -/
theorem c4_counterexample :
    unmarshalJsFieldElement 2 fdI64 [.num "9223372036854775808"] =
      .error (.intRange "9223372036854775808") ∧
    JsError.intRange "9223372036854775808" ≠ JsError.numericOverflow :=
  ⟨rfl, by decide⟩

/-- C4 (amended): numeric range handling per family. 32-bit signed types
parse the text as int64 and return `NumericOverflowError` exactly when the
value leaves the int32 range; 32-bit unsigned likewise against 2^32-1;
64-bit types accept the full parsed range; in every family a strconv
parse or range failure of the 64-bit conversion propagates as that error
itself, so only literals that fit in 64 bits but not in 32 can produce
`NumericOverflowError`. -/
theorem c4_amended_numeric_ranges :
    (∀ (fd : FieldDesc),
      (fd.typ = .tInt32 ∨ fd.typ = .tSint32 ∨ fd.typ = .tSfixed32) →
      ∀ (s : String) (fuel : Nat) (rest : List JsToken),
        (∀ i : Int, parseInt64 s = .ok i → -(2^31) ≤ i → i ≤ 2^31 - 1 →
          unmarshalJsFieldElement (fuel+1) fd (.num s :: rest) =
            .ok (some (.vint32 i), rest)) ∧
        (∀ i : Int, parseInt64 s = .ok i → (i < -(2^31) ∨ 2^31 - 1 < i) →
          unmarshalJsFieldElement (fuel+1) fd (.num s :: rest) =
            .error .numericOverflow) ∧
        (∀ e : JsError, parseInt64 s = .error e →
          unmarshalJsFieldElement (fuel+1) fd (.num s :: rest) =
            .error e)) ∧
    (∀ (fd : FieldDesc), (fd.typ = .tUint32 ∨ fd.typ = .tFixed32) →
      ∀ (s : String) (fuel : Nat) (rest : List JsToken),
        (∀ n : Nat, parseUint64 s = .ok n → n ≤ 2^32 - 1 →
          unmarshalJsFieldElement (fuel+1) fd (.num s :: rest) =
            .ok (some (.vuint32 n), rest)) ∧
        (∀ n : Nat, parseUint64 s = .ok n → 2^32 - 1 < n →
          unmarshalJsFieldElement (fuel+1) fd (.num s :: rest) =
            .error .numericOverflow) ∧
        (∀ e : JsError, parseUint64 s = .error e →
          unmarshalJsFieldElement (fuel+1) fd (.num s :: rest) =
            .error e)) ∧
    (∀ (fd : FieldDesc),
      (fd.typ = .tInt64 ∨ fd.typ = .tSint64 ∨ fd.typ = .tSfixed64) →
      ∀ (s : String) (fuel : Nat) (rest : List JsToken),
        (∀ i : Int, parseInt64 s = .ok i →
          unmarshalJsFieldElement (fuel+1) fd (.num s :: rest) =
            .ok (some (.vint64 i), rest)) ∧
        (∀ e : JsError, parseInt64 s = .error e →
          unmarshalJsFieldElement (fuel+1) fd (.num s :: rest) =
            .error e)) ∧
    (∀ (fd : FieldDesc), (fd.typ = .tUint64 ∨ fd.typ = .tFixed64) →
      ∀ (s : String) (fuel : Nat) (rest : List JsToken),
        (∀ n : Nat, parseUint64 s = .ok n →
          unmarshalJsFieldElement (fuel+1) fd (.num s :: rest) =
            .ok (some (.vuint64 n), rest)) ∧
        (∀ e : JsError, parseUint64 s = .error e →
          unmarshalJsFieldElement (fuel+1) fd (.num s :: rest) =
            .error e)) := by
  refine ⟨?_, ?_, ?_, ?_⟩
  · intro fd htyp s fuel rest
    have hni : nextInt (JsToken.num s :: rest) =
        (match parseInt64 s with
         | .error e => .error e
         | .ok i => .ok (i, rest)) := rfl
    have hstep : unmarshalJsFieldElement (fuel+1) fd (.num s :: rest) =
        match nextInt (JsToken.num s :: rest) with
        | .error e => .error e
        | .ok (i, ts1) =>
          if i > 2 ^ 31 - 1 || i < -(2 ^ 31) then .error .numericOverflow
          else .ok (some (.vint32 i), ts1) := by
      rcases htyp with h | h | h
      all_goals
        simp only [unmarshalJsFieldElement]
        rw [if_neg (by simp), h]
    refine ⟨?_, ?_, ?_⟩
    · intro i hp h1 h2
      rw [hstep, hni, hp]
      dsimp only
      split
      · rename_i hcond
        exfalso
        simp only [Bool.or_eq_true, decide_eq_true_eq] at hcond
        rcases hcond with hc | hc <;> omega
      · rfl
    · intro i hp hbad
      rw [hstep, hni, hp]
      dsimp only
      split
      · rfl
      · rename_i hcond
        exfalso
        simp only [Bool.or_eq_true, decide_eq_true_eq, not_or] at hcond
        rcases hbad with hb | hb <;> omega
    · intro e hp
      rw [hstep, hni, hp]
  · intro fd htyp s fuel rest
    have hnu : nextUint (JsToken.num s :: rest) =
        (match parseUint64 s with
         | .error e => .error e
         | .ok n => .ok (n, rest)) := rfl
    have hstep : unmarshalJsFieldElement (fuel+1) fd (.num s :: rest) =
        match nextUint (JsToken.num s :: rest) with
        | .error e => .error e
        | .ok (n, ts1) =>
          if n > 2 ^ 32 - 1 then .error .numericOverflow
          else .ok (some (.vuint32 n), ts1) := by
      rcases htyp with h | h
      all_goals
        simp only [unmarshalJsFieldElement]
        rw [if_neg (by simp), h]
    refine ⟨?_, ?_, ?_⟩
    · intro n hp h1
      rw [hstep, hnu, hp]
      dsimp only
      split
      · rename_i hcond
        exfalso
        omega
      · rfl
    · intro n hp hbad
      rw [hstep, hnu, hp]
      dsimp only
      split
      · rfl
      · rename_i hcond
        exfalso
        exact hcond hbad
    · intro e hp
      rw [hstep, hnu, hp]
  · intro fd htyp s fuel rest
    have hni : nextInt (JsToken.num s :: rest) =
        (match parseInt64 s with
         | .error e => .error e
         | .ok i => .ok (i, rest)) := rfl
    have hstep : unmarshalJsFieldElement (fuel+1) fd (.num s :: rest) =
        match nextInt (JsToken.num s :: rest) with
        | .error e => .error e
        | .ok (i, ts1) => .ok (some (.vint64 i), ts1) := by
      rcases htyp with h | h | h
      all_goals
        simp only [unmarshalJsFieldElement]
        rw [if_neg (by simp), h]
    refine ⟨?_, ?_⟩
    · intro i hp
      rw [hstep, hni, hp]
    · intro e hp
      rw [hstep, hni, hp]
  · intro fd htyp s fuel rest
    have hnu : nextUint (JsToken.num s :: rest) =
        (match parseUint64 s with
         | .error e => .error e
         | .ok n => .ok (n, rest)) := rfl
    have hstep : unmarshalJsFieldElement (fuel+1) fd (.num s :: rest) =
        match nextUint (JsToken.num s :: rest) with
        | .error e => .error e
        | .ok (n, ts1) => .ok (some (.vuint64 n), ts1) := by
      rcases htyp with h | h
      all_goals
        simp only [unmarshalJsFieldElement]
        rw [if_neg (by simp), h]
    refine ⟨?_, ?_⟩
    · intro n hp
      rw [hstep, hnu, hp]
    · intro e hp
      rw [hstep, hnu, hp]

/-- Witness for C4 (amended): 2147483647 fits int32, 2147483648 overflows
it, and the same literal is accepted unchanged on an int64 field. -/
theorem c4_witness :
    unmarshalJsFieldElement 2 fdI32 [.num "2147483647"] =
      .ok (some (.vint32 2147483647), []) ∧
    unmarshalJsFieldElement 2 fdI32 [.num "2147483648"] =
      .error .numericOverflow ∧
    unmarshalJsFieldElement 2 fdI64 [.num "2147483648"] =
      .ok (some (.vint64 2147483648), []) := by
  refine ⟨?_, ?_, ?_⟩
  · exact (c4_amended_numeric_ranges.1 fdI32 (Or.inl rfl)
      "2147483647" 1 []).1 2147483647 rfl (by decide) (by decide)
  · exact (c4_amended_numeric_ranges.1 fdI32 (Or.inl rfl)
      "2147483648" 1 []).2.1 2147483648 rfl (Or.inr (by decide))
  · exact (c4_amended_numeric_ranges.2.2.1 fdI64 (Or.inl rfl)
      "2147483648" 1 []).1 2147483648 rfl

/-- C9: `UnmarshalJSON` clears the receiver before parsing — its result
depends only on the descriptor, never on previously stored values — and a
success has passed required-field validation; `UnmarshalMergeJSON`, by
contrast, leaves any field number that no key of the input can resolve to
exactly as it was, and validates nothing (a merge can succeed leaving a
required field unset). -/
theorem c9_reset_merge_validate :
    (∀ (m1 m2 : DynMessage) (ts : List JsToken), m1.desc = m2.desc →
      UnmarshalJSON m1 ts = UnmarshalJSON m2 ts) ∧
    (∀ (m m2 : DynMessage) (ts : List JsToken),
      UnmarshalJSON m ts = .ok m2 → validateMsg m2 = true) ∧
    (∀ (m m2 : DynMessage) (ts : List JsToken) (n : Nat),
      UnmarshalMergeJSON m ts = .ok m2 →
      (∀ k fd, k ∈ tokenKeys ts → findFieldByName m.desc k = some fd →
        fd.number ≠ n) →
      lookupNum m2.values n = lookupNum m.values n) ∧
    (∃ (m m2 : DynMessage) (ts : List JsToken),
      UnmarshalMergeJSON m ts = .ok m2 ∧ validateMsg m2 = false) := by
  refine ⟨?_, ?_, ?_, ?_⟩
  · intro m1 m2 ts hd
    simp only [UnmarshalJSON, resetMessage, hd]
  · intro m m2 ts h
    simp only [UnmarshalJSON] at h
    split at h
    · exact absurd h (by simp)
    · rename_i m3 hm
      split at h
      · rename_i hv
        injection h with h2
        subst h2
        exact hv
      · exact absurd h (by simp)
  · intro m m2 ts n h hk
    exact (frame_merge m m2 ts n h hk).2
  · exact ⟨freshMessage reqDesc, freshMessage reqDesc, [.beginObj, .endObj],
      rfl, rfl⟩

/-- Witness for C9: a message with field 1 already set gives the same
`UnmarshalJSON` result as a fresh one; the parsed result validates; and a
merge of an input naming only field "l" (number 2) leaves field number 1
untouched. -/
theorem c9_witness :
    (UnmarshalJSON (DynMessage.mk sampleDesc [(1, FieldValue.vint32 9)])
        [.beginObj, .str "l", .num "7", .endObj] =
      UnmarshalJSON sampleMsg [.beginObj, .str "l", .num "7", .endObj]) ∧
    validateMsg (DynMessage.mk sampleDesc [(2, FieldValue.vint64 7)]) = true ∧
    lookupNum (DynMessage.mk sampleDesc
        [(1, FieldValue.vint32 9), (2, FieldValue.vint64 7)]).values 1 =
      lookupNum (DynMessage.mk sampleDesc [(1, FieldValue.vint32 9)]).values
        1 := by
  refine ⟨?_, ?_, ?_⟩
  · exact c9_reset_merge_validate.1 (DynMessage.mk sampleDesc
      [(1, FieldValue.vint32 9)]) sampleMsg
      [.beginObj, .str "l", .num "7", .endObj] rfl
  · exact c9_reset_merge_validate.2.1 sampleMsg
      (DynMessage.mk sampleDesc [(2, FieldValue.vint64 7)])
      [.beginObj, .str "l", .num "7", .endObj] rfl
  · exact c9_reset_merge_validate.2.2.1
      (DynMessage.mk sampleDesc [(1, FieldValue.vint32 9)])
      (DynMessage.mk sampleDesc
        [(1, FieldValue.vint32 9), (2, FieldValue.vint64 7)])
      [.beginObj, .str "l", .num "7", .endObj] 1 rfl
      (by
        intro k fd hkm hf
        have hkl : k = "l" := by simpa [tokenKeys] using hkm
        subst hkl
        rw [show findFieldByName (DynMessage.mk sampleDesc
          [(1, FieldValue.vint32 9)]).desc "l" = some fdI64 from rfl] at hf
        injection hf with hfd
        subst hfd
        decide)

/-- A run of the map-entry loop: the pairs are parsed and inserted in
order. -/
theorem mapLoop_run (keyType valueType : FieldDesc) :
    ∀ (pairs : List (JsonValue × JsonValue))
      (ps : List (Option FieldValue × Option FieldValue)),
      MapEntriesParse keyType valueType pairs ps →
      ∀ fuel mp rest, (objPairsTokens pairs).length + 1 < fuel →
        unmarshalJsMapLoop fuel keyType valueType mp
            (objPairsTokens pairs ++ .endObj :: rest) =
          .ok (ps.foldl (fun a p => mapInsert a p.1 p.2) mp, rest) := by
  intro pairs
  induction pairs with
  | nil =>
    intro ps hp fuel mp rest h
    cases ps with
    | cons p ps => exact absurd hp (by simp [MapEntriesParse])
    | nil =>
      match fuel, h with
      | fuel+1, _ =>
        simp [objPairsTokens, unmarshalJsMapLoop, hasNext, endObject, expect,
          poll]
  | cons pr tl ih =>
    intro ps hp fuel mp rest h
    obtain ⟨kv, vv⟩ := pr
    cases ps with
    | nil => exact absurd hp (by simp [MapEntriesParse])
    | cons p ps =>
      obtain ⟨k, v⟩ := p
      obtain ⟨hk, hv, htl⟩ := hp
      simp only [objPairsTokens, List.length_append, List.append_assoc] at h ⊢
      match fuel, h with
      | fuel+1, h =>
        have hkb : kv.toTokens.length < fuel := by omega
        have hvb : vv.toTokens.length < fuel := by omega
        have htlb : (objPairsTokens tl).length + 1 < fuel := by
          have h1 := toTokens_length_pos kv
          have h2 := toTokens_length_pos vv
          omega
        simp only [unmarshalJsMapLoop]
        rw [hasNext_value kv, if_pos rfl]
        rw [hk fuel _ hkb]
        dsimp only
        rw [hv fuel _ hvb]
        dsimp only
        rw [ih ps htl fuel (mapInsert mp k v) rest htlb]
        rfl

/-- Parsing the JSON-object form of a map field: entries are read with the
entry message's field-1 and field-2 descriptors and inserted in order. -/
theorem field_parses_obj_map (fd : FieldDesc) (entryType : MessageDesc)
    (keyType valueType : FieldDesc)
    (hmap : fd.isMapF = true)
    (het : fd.messageType = some entryType)
    (hk1 : findFieldByNumber entryType 1 = some keyType)
    (hk2 : findFieldByNumber entryType 2 = some valueType)
    (pairs : List (JsonValue × JsonValue))
    (ps : List (Option FieldValue × Option FieldValue))
    (hp : MapEntriesParse keyType valueType pairs ps) :
    FieldParses fd (.beginObj :: (objPairsTokens pairs ++ [.endObj]))
      (some (.vmap (mapOfPairs ps))) := by
  intro fuel rest h
  simp only [List.length_cons, List.length_append,
    List.length_singleton] at h
  match fuel, h with
  | fuel+1, h =>
    have hb : (objPairsTokens pairs).length + 1 < fuel := by omega
    have hloop := mapLoop_run keyType valueType pairs ps hp fuel [] rest hb
    simp only [List.cons_append, List.append_assoc, List.singleton_append,
      List.nil_append]
    simp only [unmarshalJsField, hmap, Bool.and_true, decide_eq_true_eq]
    simp only [if_true, List.nil_append]
    rw [if_neg (by simp)]
    rw [het]
    dsimp only
    rw [hk1, hk2]
    dsimp only
    rw [show beginObject (JsToken.beginObj ::
        (objPairsTokens pairs ++ JsToken.endObj :: rest)) =
        .ok (.beginObj, objPairsTokens pairs ++ JsToken.endObj :: rest)
      from rfl]
    dsimp only
    rw [hloop]
    rfl

/-- C10: a map-typed field accepts both the JSON-object form (each member
read key-then-value with the synthetic entry message's field-1 and field-2
descriptors) and a JSON array of entry objects each parsed as the entry
message; in either form the stored value is the map built by inserting each
entry's field-1 key with its field-2 value in input order, and a lookup
yields the value of the last entry carrying the key. -/
theorem c10_map_field_forms (fd : FieldDesc) (entryType : MessageDesc)
    (keyType valueType : FieldDesc)
    (hmap : fd.isMapF = true) (hrep : fd.repeated = true)
    (het : fd.messageType = some entryType)
    (hk1 : findFieldByNumber entryType 1 = some keyType)
    (hk2 : findFieldByNumber entryType 2 = some valueType) :
    (∀ pairs ps, MapEntriesParse keyType valueType pairs ps →
      FieldParses fd (.beginObj :: (objPairsTokens pairs ++ [.endObj]))
        (some (.vmap (mapOfPairs ps)))) ∧
    (∀ (es : List JsonValue) (ms : List DynMessage) ps,
      ElemsParse fd es (ms.map (fun mm => some (.vmsg mm))) →
      EntryPairs ms ps →
      FieldParses fd (arrTokens es) (some (.vmap (mapOfPairs ps)))) ∧
    (∀ ps k, mapLookup (mapOfPairs ps) k = lastVal k ps) := by
  refine ⟨?_, ?_, ?_⟩
  · intro pairs ps hp
    exact field_parses_obj_map fd entryType keyType valueType hmap het
      hk1 hk2 pairs ps hp
  · intro es ms ps hp hpp
    exact field_parses_array_map fd hmap hrep es ms ps hp hpp
  · intro ps k
    exact mapOfPairs_lookup ps k

/-- Witness for C10 on the sample int32-to-bool map field: the object form
with keys "1" and "2"; the array-of-entries form where the key 1 appears
twice and the last value wins; and the lookup of the duplicated key. -/
theorem c10_witness :
    unmarshalJsField 20 fdMp
      [.beginObj, .str "1", .tbool true, .str "2", .tbool false, .endObj] =
      .ok (some (.vmap [(some (.vint32 1), some (.vbool true)),
        (some (.vint32 2), some (.vbool false))]), []) ∧
    unmarshalJsField 30 fdMp
      [.beginArr,
       .beginObj, .str "key", .num "1", .str "value", .tbool true, .endObj,
       .beginObj, .str "key", .num "1", .str "value", .tbool false, .endObj,
       .endArr] =
      .ok (some (.vmap [(some (.vint32 1), some (.vbool false))]), []) ∧
    mapLookup (mapOfPairs [(some (.vint32 1), some (.vbool true)),
        (some (.vint32 1), some (.vbool false))]) (some (.vint32 1)) =
      some (some (.vbool false)) := by
  refine ⟨?_, ?_, ?_⟩
  · exact (c10_map_field_forms fdMp entryDesc
      (.mk 1 "key" .tInt32 false false false none none)
      (.mk 2 "value" .tBool false false false none none)
      rfl rfl rfl rfl rfl).1
      [(.jstr "1", .jbool true), (.jstr "2", .jbool false)]
      [(some (.vint32 1), some (.vbool true)),
       (some (.vint32 2), some (.vbool false))]
      ⟨(by
          intro fuel rest h
          obtain ⟨j, rfl⟩ : ∃ j, fuel = j + 2 := ⟨fuel - 2, by
            have e : (JsonValue.jstr "1").toTokens.length = 1 := rfl
            omega⟩
          rfl),
        (by
          intro fuel rest h
          obtain ⟨j, rfl⟩ : ∃ j, fuel = j + 2 := ⟨fuel - 2, by
            have e : (JsonValue.jbool true).toTokens.length = 1 := rfl
            omega⟩
          rfl),
        (by
          intro fuel rest h
          obtain ⟨j, rfl⟩ : ∃ j, fuel = j + 2 := ⟨fuel - 2, by
            have e : (JsonValue.jstr "2").toTokens.length = 1 := rfl
            omega⟩
          rfl),
        (by
          intro fuel rest h
          obtain ⟨j, rfl⟩ : ∃ j, fuel = j + 2 := ⟨fuel - 2, by
            have e : (JsonValue.jbool false).toTokens.length = 1 := rfl
            omega⟩
          rfl),
        trivial⟩
      20 [] (by decide)
  · exact (c10_map_field_forms fdMp entryDesc
      (.mk 1 "key" .tInt32 false false false none none)
      (.mk 2 "value" .tBool false false false none none)
      rfl rfl rfl rfl rfl).2.1
      [.jobj (.cons "key" (.jnum "1") (.cons "value" (.jbool true) .nil)),
       .jobj (.cons "key" (.jnum "1") (.cons "value" (.jbool false) .nil))]
      [.mk entryDesc [(1, .vint32 1), (2, .vbool true)],
       .mk entryDesc [(1, .vint32 1), (2, .vbool false)]]
      [(some (.vint32 1), some (.vbool true)),
       (some (.vint32 1), some (.vbool false))]
      ⟨(by
          intro fuel rest h
          obtain ⟨j, rfl⟩ : ∃ j, fuel = j + 7 := ⟨fuel - 7, by
            have e : (JsonValue.jobj (.cons "key" (.jnum "1")
              (.cons "value" (.jbool true) .nil))).toTokens.length = 6 := rfl
            omega⟩
          rfl),
        (by
          intro fuel rest h
          obtain ⟨j, rfl⟩ : ∃ j, fuel = j + 7 := ⟨fuel - 7, by
            have e : (JsonValue.jobj (.cons "key" (.jnum "1")
              (.cons "value" (.jbool false) .nil))).toTokens.length = 6 := rfl
            omega⟩
          rfl),
        trivial⟩
      ⟨rfl, rfl, rfl, rfl, trivial⟩
      30 [] (by decide)
  · exact (c10_map_field_forms fdMp entryDesc
      (.mk 1 "key" .tInt32 false false false none none)
      (.mk 2 "value" .tBool false false false none none)
      rfl rfl rfl rfl rfl).2.2
      [(some (.vint32 1), some (.vbool true)),
       (some (.vint32 1), some (.vbool false))] (some (.vint32 1)) |>.trans
      rfl

end ProtoJson
